import Mathlib

/-!
Verification of the pdf-extractor repository specification.

The Python sources are shallowly embedded: strings are `List Char`,
Python `float` arithmetic on the small exact constants used by the code is
modelled by `ℚ`, dictionaries with known key sets become structures with
`Option` fields, and code that raises an exception is modelled with
`Except`.  Each definition is a direct translation of the function of the
same name in the repository.
-/

namespace PDFX

/-! ## Python string primitives -/

/-- Whitespace as recognised by Python `str.strip` / regex `\s` on the
character set occurring in this code base: ASCII whitespace plus the
ideographic space U+3000. -/
def pyIsSpace (c : Char) : Bool :=
  c = ' ' || c = '\t' || c = '\n' || c = '\r' || c = '\x0b' || c = '\x0c' ||
  c = '　'

/-- Python `str.strip()`: drop leading and trailing whitespace. -/
def pyStrip (s : List Char) : List Char :=
  ((s.dropWhile pyIsSpace).reverse.dropWhile pyIsSpace).reverse

/-- Decimal digits as matched by regex `\d` in the source: ASCII digits
together with the full-width digits U+FF10–U+FF19 that occur in Japanese
PDFs. -/
def pyIsDigit (c : Char) : Bool :=
  c.isDigit || ('０' ≤ c && c ≤ '９')

/-- Python substring containment `tok in s` on character lists. -/
def listContains (tok s : List Char) : Bool :=
  decide (tok <:+: s)

/-! ## A small regex engine

Executable model of the fragment of Python `re` used by the sources:
literals, character classes with greedy quantifiers, alternations of
literal words, `^`/`$` anchors (with and without `re.MULTILINE`), and a
negative lookahead over a single character class.  Matching is
backtracking and leftmost, like CPython's engine on these patterns. -/

/-- Quantifier of a character class atom. -/
inductive Quant where
  | one | plus | star
  | between : Nat → Nat → Quant

/-- One item of a regex sequence. -/
inductive RItem where
  | lit : Char → RItem
  | cls : (Char → Bool) → Quant → RItem
  | alts : List (List Char) → RItem
  | bol : RItem
  | eolM : RItem
  | eolS : RItem
  | nla : (Char → Bool) → RItem

/-- Character comparison, optionally case-insensitive (`re.IGNORECASE`
over the ASCII letters appearing in the patterns). -/
def charEq (ci : Bool) (a b : Char) : Bool :=
  if ci then a.toLower = b.toLower else a = b

/-- Consume a literal word from the head of the input. -/
def dropWord (ci : Bool) : List Char → List Char → Option (List Char)
  | [], s => some s
  | _ :: _, [] => none
  | w :: ws, a :: s => if charEq ci a w then dropWord ci ws s else none

/-- Length of the maximal head run satisfying `p`. -/
def runLen (p : Char → Bool) : List Char → Nat
  | [] => 0
  | a :: s => if p a then runLen p s + 1 else 0

/-- First successful application of `f` over a list. -/
def firstSome {α β : Type} : List α → (α → Option β) → Option β
  | [], _ => none
  | a :: l, f => match f a with | some b => some b | none => firstSome l f

/-- Last character of the consumed text, else the previous character
(used to evaluate the multiline `^` anchor). -/
def prevAfter (prev : Option Char) (consumed : List Char) : Option Char :=
  match consumed.getLast? with
  | some c => some c
  | none => prev

/-- Backtracking matcher in continuation style: try to match the item
sequence at the head of `s` (with `prev` the character just before `s`)
and pass the leftover input to `k`.  Greedy quantifiers try the longest
run first, alternatives are tried left to right, as in CPython.  The
`fuel` argument only makes the recursion structural; one unit is spent
per item, so `items.length + 1` always suffices. -/
def matchSeqF (ci : Bool) : Nat → List RItem → Option Char → List Char →
    (Option Char → List Char → Option (List Char)) → Option (List Char)
  | 0, _, _, _, _ => none
  | _ + 1, [], prev, s, k => k prev s
  | fuel + 1, .lit c :: rest, _, s, k =>
      match s with
      | [] => none
      | a :: s2 =>
          if charEq ci a c then matchSeqF ci fuel rest (some a) s2 k else none
  | fuel + 1, .cls p q :: rest, prev, s, k =>
      let m := runLen p s
      let hi := match q with
        | .one => min 1 m
        | .plus => m
        | .star => m
        | .between _ h => min h m
      let lo := match q with
        | .one => 1
        | .plus => 1
        | .star => 0
        | .between l _ => l
      firstSome ((List.range (hi + 1 - lo)).map (fun j => hi - j))
        (fun n => matchSeqF ci fuel rest (prevAfter prev (s.take n)) (s.drop n) k)
  | fuel + 1, .alts ws :: rest, prev, s, k =>
      firstSome ws (fun w =>
        match dropWord ci w s with
        | some s2 => matchSeqF ci fuel rest (prevAfter prev (s.take w.length)) s2 k
        | none => none)
  | fuel + 1, .bol :: rest, prev, s, k =>
      if prev = none || prev = some '\n' then matchSeqF ci fuel rest prev s k
      else none
  | fuel + 1, .eolM :: rest, prev, s, k =>
      if s.isEmpty || s.head? = some '\n' then matchSeqF ci fuel rest prev s k
      else none
  | fuel + 1, .eolS :: rest, prev, s, k =>
      if s.isEmpty || s = '\n' :: [] then matchSeqF ci fuel rest prev s k
      else none
  | fuel + 1, .nla p :: rest, prev, s, k =>
      if (s.head?.map p).getD false then none
      else matchSeqF ci fuel rest prev s k

/-- Matcher with the always-sufficient fuel. -/
def matchSeq (ci : Bool) (items : List RItem) (prev : Option Char)
    (s : List Char) (k : Option Char → List Char → Option (List Char)) :
    Option (List Char) :=
  matchSeqF ci (items.length + 1) items prev s k

/-- Python `re.findall` scan: non-overlapping leftmost matches; after an
empty match the scan advances one character. -/
def findAllGo (ci : Bool) (items : List RItem) :
    Nat → Option Char → List Char → List (List Char)
  | 0, _, _ => []
  | fuel + 1, prev, s =>
    match matchSeq ci items prev s (fun _ rem => some rem) with
    | some rem =>
        let len := s.length - rem.length
        if len = 0 then
          match s with
          | [] => [] :: []
          | c :: s2 => [] :: findAllGo ci items fuel (some c) s2
        else
          s.take len ::
            findAllGo ci items fuel (prevAfter prev (s.take len)) (s.drop len)
    | none =>
        match s with
        | [] => []
        | c :: s2 => findAllGo ci items fuel (some c) s2

/-- Python `re.findall` on a whole string (fuel `|s| + 1` always
suffices, since every step consumes at least one character). -/
def findAll (ci : Bool) (items : List RItem) (s : List Char) : List (List Char) :=
  findAllGo ci items (s.length + 1) none s

/-- Python `re.search` as a Boolean: some match exists. -/
def reSearch (ci : Bool) (items : List RItem) (s : List Char) : Bool :=
  !(findAll ci items s).isEmpty

/-- Python `re.match`: match the pattern at the start of the string. -/
def reMatch (ci : Bool) (items : List RItem) (s : List Char) : Bool :=
  (matchSeq ci items none s (fun _ rem => some rem)).isSome

/-- Lift a literal string to a sequence of literal items. -/
def lits (w : String) : List RItem :=
  w.data.map RItem.lit

/-! ## quality_scorer.py : `_calculate_confidence` -/

/-- Mean of a list of rationals, as computed by `sum(scores)/len(scores)`. -/
def listAvg (scores : List ℚ) : ℚ :=
  scores.sum / scores.length

/-- Population variance `sum((s - avg) ** 2 for s in scores) / len(scores)`
as computed by `QualityScorer._calculate_confidence`. -/
def listVariance (scores : List ℚ) : ℚ :=
  (scores.map (fun s => (s - listAvg scores) ^ 2)).sum / scores.length

/-- Translation of `QualityScorer._calculate_confidence`
(`src/pdf_extractor_new/quality_scorer.py`): the input list holds the
`score` field of each `QualityDimension`.  Mirrors
`confidence = 1.0 - min(0.5, variance / 1000)` followed by
`return max(0.3, min(1.0, confidence))`. -/
def calculateConfidence (scores : List ℚ) : ℚ :=
  if scores.isEmpty then 1/2
  else
    let variance := listVariance scores
    let confidence := 1 - min (1/2) (variance / 1000)
    max (3/10) (min 1 confidence)

/-- Rendering of the claim C9 formula, written from the specification text:
confidence is `1.0` minus variance over `1000`, floored at `0.3`. -/
def claimedConfidenceC9 (scores : List ℚ) : ℚ :=
  max (3/10) (1 - listVariance scores / 1000)

/-! ## anti_hallucination.py

Issue and warning strings carry no information used by any theorem, so
the f-string interpolations of the source messages are abbreviated to
fixed prefixes (and the single quotes around interpolated text are
dropped); only emptiness or membership of the lists is ever stated. -/

/-- The `by_region` sub-dictionary of an inventory report; the inventory
builder in `element_inventory.py` only ever writes the keys
`top`, `middle`, `bottom`, a missing key is `none`. -/
structure ByRegion where
  top : Option ℤ
  middle : Option ℤ
  bottom : Option ℤ
deriving DecidableEq

/-- An element-inventory report dictionary, with the keys read by
`AntiHallucinationVerifier.verify`; a missing key is `none`. -/
structure Inventory where
  total_expected : Option ℤ
  total_extracted : Option ℤ
  by_region : Option ByRegion
deriving DecidableEq

/-- Result dataclass `VerificationResult`. -/
structure VerificationResult where
  passed : Bool
  issues : List (List Char)
  warnings : List (List Char)
  element_match_rate : ℚ
  position_consistency : ℚ
  suspicious_content : List (List Char)
deriving DecidableEq

/-- Python `len(text.split())`: the number of maximal non-whitespace runs.
The flag records whether the previous character was part of a word. -/
def pyWordCountGo : Bool → List Char → Nat
  | _, [] => 0
  | inWord, c :: s =>
    if pyIsSpace c then pyWordCountGo false s
    else (if inWord then 0 else 1) + pyWordCountGo true s

/-- Number of words of `text.split()`. -/
def pyWordCount (s : List Char) : Nat :=
  pyWordCountGo false s

/-- The `self.hallucination_patterns` list: each entry keeps the raw
pattern source text (used by the `'**' in pattern` test of
`_check_hallucination_patterns`) next to its compiled form.  All entries
are matched with `re.MULTILINE | re.IGNORECASE`. -/
def hallucinationPatterns : List (List Char × List RItem) :=
  [ (("^#\x7b1,6\x7d\\s+(?:目次|概要|はじめに|結論|まとめ)$").data,
      [.bol, .cls (fun c => c = '#') (.between 1 6), .cls pyIsSpace .plus,
       .alts [("目次").data, ("概要").data, ("はじめに").data, ("結論").data,
         ("まとめ").data], .eolM]),
    (("^(?:Table of Contents|Summary|Introduction|Conclusion)$").data,
      [.bol, .alts [("Table of Contents").data, ("Summary").data,
        ("Introduction").data, ("Conclusion").data], .eolM]),
    (("\\*\\*[^*]+\\*\\*").data,
      [.lit '*', .lit '*', .cls (fun c => !(c = '*')) .plus, .lit '*', .lit '*']),
    (("__[^_]+__").data,
      [.lit '_', .lit '_', .cls (fun c => !(c = '_')) .plus, .lit '_', .lit '_']),
    (("\\*[^*]+\\*(?!\\d)").data,
      [.lit '*', .cls (fun c => !(c = '*')) .plus, .lit '*', .nla pyIsDigit]),
    (("_[^_]+_").data,
      [.lit '_', .cls (fun c => !(c = '_')) .plus, .lit '_']),
    (("<[a-z]+[^>]*>").data,
      [.lit '<', .cls Char.isAlpha .plus, .cls (fun c => !(c = '>')) .star,
        .lit '>']),
    (("</[a-z]+>").data,
      [.lit '<', .lit '/', .cls Char.isAlpha .plus, .lit '>']),
    (("This (?:section|document|page) (?:describes|contains|shows)").data,
      lits ("This ") ++
        [.alts [("section").data, ("document").data, ("page").data]] ++
        lits (" ") ++
        [.alts [("describes").data, ("contains").data, ("shows").data]]),
    (("(?:As shown|As seen|Note that|Please note)").data,
      [.alts [("As shown").data, ("As seen").data, ("Note that").data,
        ("Please note").data]]),
    (("(?:The following|Below is|Above is)").data,
      [.alts [("The following").data, ("Below is").data, ("Above is").data]]) ]

/-- The test `'**' in pattern or '__' in pattern or '<' in pattern` on the
raw pattern source text. -/
def isMarkupPattern (src : List Char) : Bool :=
  listContains ('*' :: '*' :: []) src || listContains ('_' :: '_' :: []) src ||
  listContains ('<' :: []) src

/-- Issue message built from the first match (text abbreviated). -/
def suspiciousFormattingMsg (m : List Char) : List Char :=
  ("Suspicious formatting found (possible hallucination): ").data ++
    m.take 50 ++ ("...").data

/-- Translation of `_check_hallucination_patterns`: returns the pairs of
appended `suspicious` entries (first three matches of each matching
pattern) and appended `issues` (only for patterns whose source text
contains `**`, `__` or `<`). -/
def checkHallucinationPatterns (text : List Char) :
    List (List Char) × List (List Char) :=
  hallucinationPatterns.foldl
    (fun acc pat =>
      match findAll true pat.2 text with
      | [] => acc
      | m0 :: ms =>
          ((acc.1 ++ (m0 :: ms).take 3),
           if isMarkupPattern pat.1 then acc.2 ++ [suspiciousFormattingMsg m0]
           else acc.2))
    ([], [])

/-- Abbreviation of the severe-loss issue message. -/
def severeLossMsg : List Char := ("Severe content loss").data

/-- Abbreviation of the moderate-loss warning message. -/
def moderateLossMsg : List Char := ("Moderate content loss").data

/-- Abbreviation of the duplication warning message. -/
def duplicationMsg : List Char := ("Possible duplication").data

/-- The `inventory.get('total_expected', 0)` read. -/
def expectedOf (inv : Inventory) : ℤ :=
  inv.total_expected.getD 0

/-- The `inventory.get('total_extracted', len(text.split()))` read. -/
def extractedOf (text : List Char) (inv : Inventory) : ℤ :=
  inv.total_extracted.getD (pyWordCount text)

/-- Translation of `AntiHallucinationVerifier._check_element_count`:
returns the element match rate together with the issues and warnings it
appends.  Python float division and the `0.5`/`0.7`/`1.5` thresholds are
modelled exactly over `ℚ`. -/
def checkElementCount (text : List Char) (inv : Inventory) :
    ℚ × List (List Char) × List (List Char) :=
  let expected := expectedOf inv
  let extracted := extractedOf text inv
  if expected = 0 then (1, [], [])
  else
    let ratio : ℚ := (extracted : ℚ) / (expected : ℚ)
    if ratio < 1/2 then (min ratio 1, [severeLossMsg], [])
    else if ratio < 7/10 then (min ratio 1, [], [moderateLossMsg])
    else if ratio > 3/2 then (min ratio 1, [], [duplicationMsg])
    else (min ratio 1, [], [])

/-- Abbreviation of the missing-footnote-region warning message. -/
def bottomRegionMsg : List Char :=
  ("Expected elements in bottom region but no footnote markers found").data

/-- The search `re.search(r'[※注\*†‡]\d*', text)`: since the trailing
`\d*` may be empty this is containment of one of the five marker
characters. -/
def hasFootnoteRegionChar (text : List Char) : Bool :=
  text.any (fun c => c = '※' || c = '注' || c = '*' || c = '†' || c = '‡')

/-- Translation of `_check_position_distribution`: returns the position
consistency score and the appended warnings.  The unused
`text.split('--- PAGE')` assignment of the source is omitted. -/
def checkPositionDistribution (text : List Char) (inv : Inventory) :
    ℚ × List (List Char) :=
  match inv.by_region with
  | none => (1, [])
  | some r =>
      if r.top.isNone && r.middle.isNone && r.bottom.isNone then (1, [])
      else
        let expected_bottom := r.bottom.getD 0
        let total := r.top.getD 0 + r.middle.getD 0 + expected_bottom
        if total = 0 then (1, [])
        else if 0 < expected_bottom && !hasFootnoteRegionChar text then
          (8/10, [bottomRegionMsg])
        else (1, [])

/-- The pattern `\*(\d+)`. -/
def starDigitsPat : List RItem :=
  [.lit '*', .cls pyIsDigit .plus]

/-- The markers `re.findall(r'\*(\d+)', text)`: group 1 is the digit run
after the asterisk of each match. -/
def findStarMarkers (text : List Char) : List (List Char) :=
  (findAll false starDigitsPat text).map (fun m => m.drop 1)

/-- Abbreviation of the missing-definition warning message. -/
def footnoteWarnMsg (num : List Char) : List Char :=
  ("Footnote marker *").data ++ num ++
    (" found but no definition detected").data

/-- The definition pattern `rf'\*{marker_num}\s*[：:\s]'`. -/
def starDefPat (num : List Char) : List RItem :=
  [.lit '*'] ++ num.map RItem.lit ++
  [.cls pyIsSpace .star, .cls (fun c => c = '：' || c = ':' || pyIsSpace c) .one]

/-- Translation of `_check_footnote_completeness` (warnings appended).
Python iterates `set(markers)` in unspecified order; first-occurrence
order is used here, which only affects the order of the warning list. -/
def checkFootnoteCompleteness (text : List Char) : List (List Char) :=
  (findStarMarkers text).eraseDups.foldl
    (fun ws num =>
      if reSearch false (starDefPat num) text then ws
      else ws ++ [footnoteWarnMsg num])
    []

/-- The pattern `--- PAGE \d+ START ---`. -/
def pageStartPat : List RItem :=
  lits ("--- PAGE ") ++ [.cls pyIsDigit .plus] ++ lits (" START ---")

/-- The pattern `--- PAGE \d+ END ---`. -/
def pageEndPat : List RItem :=
  lits ("--- PAGE ") ++ [.cls pyIsDigit .plus] ++ lits (" END ---")

/-- Abbreviation of the marker mismatch issue message. -/
def markerMismatchMsg : List Char := ("Page marker mismatch").data

/-- Abbreviation of the page count mismatch issue message. -/
def pageCountMismatchMsg : List Char := ("Page count mismatch").data

/-- Translation of `_check_page_markers` (issues appended). -/
def checkPageMarkers (text : List Char) (expected_pages : ℤ) : List (List Char) :=
  let starts := (findAll false pageStartPat text).length
  let ends := (findAll false pageEndPat text).length
  (if starts ≠ ends then [markerMismatchMsg] else []) ++
  (if (starts : ℤ) ≠ expected_pages then [pageCountMismatchMsg] else [])

/-- Threshold `self.min_element_match_rate = 0.70`. -/
def minElementMatchRate : ℚ := 7/10

/-- Threshold `self.min_position_consistency = 0.80`. -/
def minPositionConsistency : ℚ := 8/10

/-- Translation of `AntiHallucinationVerifier.verify`: runs the five
checks, accumulating issues and warnings in source order, and passes iff
there are no issues and both scores reach their thresholds. -/
def verify (text : List Char) (inv : Inventory) (page_count : ℤ) :
    VerificationResult :=
  let c1 := checkElementCount text inv
  let c2 := checkPositionDistribution text inv
  let c3 := checkHallucinationPatterns text
  let c4 := checkFootnoteCompleteness text
  let c5 := checkPageMarkers text page_count
  let issues := c1.2.1 ++ c3.2 ++ c5
  let warnings := c1.2.2 ++ c2.2 ++ c4
  { passed := issues.isEmpty && decide (minElementMatchRate ≤ c1.1) &&
      decide (minPositionConsistency ≤ c2.1)
    issues := issues
    warnings := warnings
    element_match_rate := c1.1
    position_consistency := c2.1
    suspicious_content := c3.1 }

/-- The failing input of claim C1: a text that is exactly one markdown
bold span. -/
def boldExample : List Char := ("**bold**").data

/-- The empty inventory report (no keys). -/
def emptyInventory : Inventory := ⟨none, none, none⟩

/-- Claim C1 (code bug): the raw source text of the bold pattern is
`\*\*[^*]+\*\*`, which does not contain the two-character substring `**`,
so `_check_hallucination_patterns` records the bold match only as
suspicious content and never escalates it to an issue; with an empty
inventory and a declared page count of `0`, `verify` on `**bold**`
returns no issues and `passed=True`, contradicting the claim. -/
theorem verify_bold_passes :
    (verify boldExample emptyInventory 0).passed = true ∧
    (verify boldExample emptyInventory 0).issues = [] ∧
    (verify boldExample emptyInventory 0).suspicious_content ≠ [] := by
  have h1 : checkElementCount boldExample emptyInventory = (1, [], []) := by decide
  have h2 : checkPositionDistribution boldExample emptyInventory = (1, []) := by decide
  have h3 : checkHallucinationPatterns boldExample =
      ((("**bold**").data :: ("*bold*").data :: []), []) := by decide
  have h4 : checkFootnoteCompleteness boldExample = [] := by decide
  have h5 : checkPageMarkers boldExample 0 = [] := by decide
  refine ⟨?_, ?_, ?_⟩
  · simp only [verify, h1, h2, h3, h4, h5, minElementMatchRate,
      minPositionConsistency]
    norm_num
  · simp [verify, h1, h3, h5]
  · simp [verify, h3]

/-- Claim C2: `_check_element_count` returns
`min(1, extracted/expected)` (and `1` with no issue or warning when the
expected count is zero), records an issue exactly when the uncapped ratio
is below `0.5`, and a warning exactly when the ratio lies in `[0.5, 0.7)`
or above `1.5`; the returned rate never exceeds `1`. -/
theorem checkElementCount_spec (text : List Char) (inv : Inventory) :
    (expectedOf inv = 0 → checkElementCount text inv = (1, [], [])) ∧
    (expectedOf inv ≠ 0 →
      (checkElementCount text inv).1 =
        min ((extractedOf text inv : ℚ) / (expectedOf inv : ℚ)) 1 ∧
      (checkElementCount text inv).1 ≤ 1 ∧
      ((checkElementCount text inv).2.1 ≠ [] ↔
        (extractedOf text inv : ℚ) / (expectedOf inv : ℚ) < 1/2) ∧
      ((checkElementCount text inv).2.2 ≠ [] ↔
        ((1/2 ≤ (extractedOf text inv : ℚ) / (expectedOf inv : ℚ) ∧
          (extractedOf text inv : ℚ) / (expectedOf inv : ℚ) < 7/10) ∨
         3/2 < (extractedOf text inv : ℚ) / (expectedOf inv : ℚ)))) := by
  constructor
  · intro h
    simp [checkElementCount, h]
  · intro h
    rw [checkElementCount]
    rw [if_neg h]
    dsimp only
    set ratio := (extractedOf text inv : ℚ) / (expectedOf inv : ℚ) with hr
    split_ifs with hlt hmod hdup
    · refine ⟨rfl, min_le_right _ _, ?_, ?_⟩
      · simpa using hlt
      · simp only [ne_eq, not_true_eq_false, false_iff]
        rintro (⟨hx1, hx2⟩ | hx) <;> linarith
    · refine ⟨rfl, min_le_right _ _, ?_, ?_⟩
      · simpa using hlt
      · simp only [ne_eq, reduceCtorEq]
        simp only [not_false_eq_true, true_iff]
        exact Or.inl ⟨by linarith, hmod⟩
    · refine ⟨rfl, min_le_right _ _, ?_, ?_⟩
      · simpa using hlt
      · simp only [ne_eq, reduceCtorEq]
        simp only [not_false_eq_true, true_iff]
        exact Or.inr hdup
    · refine ⟨rfl, min_le_right _ _, ?_, ?_⟩
      · simpa using hlt
      · simp only [ne_eq, not_true_eq_false, false_iff]
        rintro (⟨hx1, hx2⟩ | hx) <;> simp_all

/-- Witness for C2: the zero-expected case and a duplication case with
expected `4`, extracted `8` (ratio `2`, rate capped at `1`). -/
theorem checkElementCount_spec_witness :
    checkElementCount [] (Inventory.mk none none none) = (1, [], []) ∧
    ((checkElementCount [] (Inventory.mk (some 4) (some 8) none)).1 =
      min ((extractedOf [] (Inventory.mk (some 4) (some 8) none) : ℚ) /
        (expectedOf (Inventory.mk (some 4) (some 8) none) : ℚ)) 1 ∧
     (checkElementCount [] (Inventory.mk (some 4) (some 8) none)).1 ≤ 1 ∧
     ((checkElementCount [] (Inventory.mk (some 4) (some 8) none)).2.1 ≠ [] ↔
       (extractedOf [] (Inventory.mk (some 4) (some 8) none) : ℚ) /
         (expectedOf (Inventory.mk (some 4) (some 8) none) : ℚ) < 1/2) ∧
     ((checkElementCount [] (Inventory.mk (some 4) (some 8) none)).2.2 ≠ [] ↔
       ((1/2 ≤ (extractedOf [] (Inventory.mk (some 4) (some 8) none) : ℚ) /
           (expectedOf (Inventory.mk (some 4) (some 8) none) : ℚ) ∧
         (extractedOf [] (Inventory.mk (some 4) (some 8) none) : ℚ) /
           (expectedOf (Inventory.mk (some 4) (some 8) none) : ℚ) < 7/10) ∨
        3/2 < (extractedOf [] (Inventory.mk (some 4) (some 8) none) : ℚ) /
          (expectedOf (Inventory.mk (some 4) (some 8) none) : ℚ)))) :=
  ⟨(checkElementCount_spec [] (Inventory.mk none none none)).1 rfl,
   (checkElementCount_spec [] (Inventory.mk (some 4) (some 8) none)).2 (by decide)⟩

/-! ## footnote_extractor.py : confidence and matching -/

/-- A footnote marker occurrence (dataclass `FootnoteMarker`). -/
structure FootnoteMarker where
  marker : List Char
  page_number : ℤ
  x : ℚ
  y : ℚ
  context : List Char
deriving DecidableEq

/-- A footnote definition (dataclass `FootnoteDefinition`). -/
structure FootnoteDefinition where
  marker : List Char
  text : List Char
  page_number : ℤ
  y : ℚ
deriving DecidableEq

/-- A matched marker-definition pair (dataclass `FootnoteMatch`). -/
structure FootnoteMatch where
  marker : FootnoteMarker
  definition : FootnoteDefinition
  confidence : ℚ
deriving DecidableEq

/-- Marker normalisation `m.replace(' ', '').replace(':', '')` used inside
`_calculate_match_confidence`. -/
def normalizeMarker (s : List Char) : List Char :=
  s.filter (fun c => !(c = ' ' || c = ':'))

/-- Python `str.startswith` for the single-character literals used in
`_same_marker_type`: the first character equals `c`. -/
def startsWithChar (c : Char) : List Char → Bool
  | [] => false
  | a :: _ => a = c

/-- Translation of `FootnoteExtractor._same_marker_type`. -/
def sameMarkerType (marker1 marker2 : List Char) : Bool :=
  (startsWithChar '*' marker1 && startsWithChar '*' marker2) ||
  (startsWithChar '※' marker1 && startsWithChar '※' marker2) ||
  (startsWithChar '注' marker1 && startsWithChar '注' marker2) ||
  (marker1 = '†' :: [] && marker2 = '†' :: []) ||
  (marker1 = '‡' :: [] && marker2 = '‡' :: []) ||
  (startsWithChar '[' marker1 && startsWithChar '[' marker2) ||
  (startsWithChar '(' marker1 && startsWithChar '(' marker2)

/-- Translation of `FootnoteExtractor._calculate_match_confidence`.  Note
that in the source the `confidence = 1.0` branch for an exact match is
always followed by the normalised comparison, which succeeds as well and
overwrites the value with `0.95`; the translation keeps the two sequential
assignments exactly as written. -/
def calcMatchConfidence (marker : FootnoteMarker) (definition : FootnoteDefinition) : ℚ :=
  let confidence : ℚ := 0
  let confidence := if marker.marker = definition.marker then 1 else confidence
  let confidence :=
    if normalizeMarker marker.marker = normalizeMarker definition.marker then 95/100
    else confidence
  let confidence :=
    if marker.page_number = definition.page_number then confidence + 3/10 else confidence
  let confidence :=
    if sameMarkerType marker.marker definition.marker then confidence + 2/10 else confidence
  min confidence 1

/-- Translation of `FootnoteExtractor.match_markers_to_definitions`.
In the source, `matched_definitions` is a Python `set` and the first
statement of the inner loop evaluates `definition in matched_definitions`,
which hashes the `FootnoteDefinition`.  `FootnoteDefinition` is a
non-frozen `eq` dataclass, hence unhashable, so that membership test
raises `TypeError` as soon as both loops have something to iterate over.
When `definitions` is empty the inner loop never runs, `best_match` stays
`None` for every marker, and the empty match list is returned. -/
def matchMarkersToDefinitions (markers : List FootnoteMarker)
    (definitions : List FootnoteDefinition) : Except (List Char) (List FootnoteMatch) :=
  match markers, definitions with
  | [], _ => .ok []
  | _ :: _, [] => .ok []
  | _ :: _, _ :: _ => .error (("TypeError: unhashable type: FootnoteDefinition").data)

/-- The nine marker families of `FootnoteExtractor.marker_patterns`
(`asterisk` covers both asterisk patterns, which match the same strings). -/
inductive MarkerFamily where
  | asterisk | kome | chu | dagger | doubleDagger | bracketed | parenthesized | unicodeSuper
deriving DecidableEq

/-- Unicode superscript digits of the `unicode_super` pattern. -/
def isSuperChar (c : Char) : Bool :=
  c = '¹' || c = '²' || c = '³' || c = '⁴' || c = '⁵' || c = '⁶' || c = '⁷' ||
  c = '⁸' || c = '⁹' || c = '⁰'

/-- Membership of a marker string in a marker family: the string is a full
match of the corresponding regex in `FootnoteExtractor.marker_patterns`. -/
def inFamily (f : MarkerFamily) (s : List Char) : Bool :=
  match f, s with
  | .asterisk, c :: ds => c = '*' && ds.all pyIsDigit
  | .kome, c :: ds => c = '※' && ds.all pyIsDigit
  | .chu, c :: ds => c = '注' && ds.all pyIsDigit
  | .dagger, s => s = '†' :: []
  | .doubleDagger, s => s = '‡' :: []
  | .bracketed, c :: rest =>
      c = '[' && 2 ≤ rest.length && rest.getLast? = some ']' &&
        rest.dropLast.all pyIsDigit
  | .parenthesized, c :: rest =>
      c = '(' && 2 ≤ rest.length && rest.getLast? = some ')' &&
        rest.dropLast.all pyIsDigit
  | .unicodeSuper, s => !s.isEmpty && s.all isSuperChar
  | _, [] => false

/-- First-character discipline of each marker family. -/
def famHead (f : MarkerFamily) (c : Char) : Bool :=
  match f with
  | .asterisk => c = '*'
  | .kome => c = '※'
  | .chu => c = '注'
  | .dagger => c = '†'
  | .doubleDagger => c = '‡'
  | .bracketed => c = '['
  | .parenthesized => c = '('
  | .unicodeSuper => isSuperChar c

theorem inFamily_head {f : MarkerFamily} {s : List Char} (h : inFamily f s = true) :
    ∃ c t, s = c :: t ∧ famHead f c = true := by
  cases s with
  | nil => exact absurd h (by cases f <;> simp [inFamily])
  | cons c t =>
    refine ⟨c, t, rfl, ?_⟩
    cases f <;> simp_all [inFamily, famHead]

theorem famHead_ne {f₁ f₂ : MarkerFamily} {c₁ c₂ : Char} (hf : f₁ ≠ f₂)
    (h₁ : famHead f₁ c₁ = true) (h₂ : famHead f₂ c₂ = true) : c₁ ≠ c₂ := by
  intro hc
  subst hc
  cases f₁ <;> cases f₂ <;> first
    | exact hf rfl
    | simp_all [famHead, isSuperChar]

theorem famHead_not_stripped {f : MarkerFamily} {c : Char} (h : famHead f c = true) :
    (c = ' ' || c = ':') = false := by
  cases f <;> simp_all [famHead, isSuperChar]
  constructor <;> intro hc <;> subst hc <;> revert h <;> decide

theorem normalizeMarker_cons {c : Char} (h : (c = ' ' || c = ':') = false)
    (t : List Char) : normalizeMarker (c :: t) = c :: normalizeMarker t := by
  have h' : ¬c = ' ' ∧ ¬c = ':' := by simpa using h
  simp [normalizeMarker, List.filter_cons, h'.1, h'.2]

theorem sameMarkerType_head_ne {c₁ c₂ : Char} {t₁ t₂ : List Char} (hc : c₁ ≠ c₂) :
    sameMarkerType (c₁ :: t₁) (c₂ :: t₂) = false := by
  rw [Bool.eq_false_iff]
  intro h
  simp only [sameMarkerType, startsWithChar, Bool.or_eq_true, Bool.and_eq_true,
    decide_eq_true_eq, List.cons.injEq] at h
  rcases h with ((((((h | h) | h) | h) | h) | h) | h) <;>
    first
      | exact hc (h.1.trans h.2.symm)
      | exact hc (h.1.1.trans h.2.1.symm)

theorem calcMatchConfidence_all_false {m : FootnoteMarker} {d : FootnoteDefinition}
    (h1 : m.marker ≠ d.marker)
    (h2 : normalizeMarker m.marker ≠ normalizeMarker d.marker)
    (h3 : m.page_number ≠ d.page_number)
    (h4 : sameMarkerType m.marker d.marker = false) :
    calcMatchConfidence m d = 0 := by
  simp [calcMatchConfidence, h1, h2, h3, h4]

/-- Claim C5: for exactly equal marker strings on the same page the match
confidence is strictly above the acceptance threshold `0.5`; for a marker
and a definition from two different marker families on different pages the
confidence is at most `0.3` (indeed it is `0`). -/
theorem footnote_confidence_extremes :
    (∀ (m : FootnoteMarker) (d : FootnoteDefinition),
      m.marker = d.marker → m.page_number = d.page_number →
      1/2 < calcMatchConfidence m d) ∧
    (∀ (m : FootnoteMarker) (d : FootnoteDefinition) (f₁ f₂ : MarkerFamily),
      f₁ ≠ f₂ → inFamily f₁ m.marker = true → inFamily f₂ d.marker = true →
      m.page_number ≠ d.page_number →
      calcMatchConfidence m d ≤ 3/10) := by
  constructor
  · intro m d h hp
    have hn : normalizeMarker m.marker = normalizeMarker d.marker := by rw [h]
    simp only [calcMatchConfidence, h, hn, hp, if_pos rfl]
    split <;> norm_num [min_def]
  · intro m d f₁ f₂ hf hm hd hp
    obtain ⟨c₁, t₁, hs₁, hh₁⟩ := inFamily_head hm
    obtain ⟨c₂, t₂, hs₂, hh₂⟩ := inFamily_head hd
    have hc : c₁ ≠ c₂ := famHead_ne hf hh₁ hh₂
    have h1 : m.marker ≠ d.marker := by
      rw [hs₁, hs₂]
      intro h
      exact hc (List.cons.injEq .. ▸ h).1
    have h2 : normalizeMarker m.marker ≠ normalizeMarker d.marker := by
      rw [hs₁, hs₂, normalizeMarker_cons (famHead_not_stripped hh₁),
        normalizeMarker_cons (famHead_not_stripped hh₂)]
      intro h
      exact hc (List.cons.injEq .. ▸ h).1
    have h4 : sameMarkerType m.marker d.marker = false := by
      rw [hs₁, hs₂]
      exact sameMarkerType_head_ne hc
    rw [calcMatchConfidence_all_false h1 h2 hp h4]
    norm_num

/-- Witness for C5 at concrete inputs: an exact same-page match `*1` and a
cross-family different-page pair `*1` / `注1`. -/
theorem footnote_confidence_extremes_witness :
    1/2 < calcMatchConfidence ⟨('*' :: '1' :: []), 1, 0, 0, []⟩
        ⟨('*' :: '1' :: []), [], 1, 0⟩ ∧
    calcMatchConfidence ⟨('*' :: '1' :: []), 1, 0, 0, []⟩
        ⟨('注' :: '1' :: []), [], 2, 0⟩ ≤ 3/10 :=
  ⟨footnote_confidence_extremes.1 _ _ rfl rfl,
   footnote_confidence_extremes.2 _ _ .asterisk .chu (by decide) (by decide)
     (by decide) (by decide)⟩

/-- Claim C4 (code bug): `_calculate_match_confidence` gives an exact
marker-string match the base `0.95`, not `1.0`, because the normalised
comparison always overwrites the `confidence = 1.0` assignment.  For the
unicode-superscript marker `¹` matched against definition marker `¹` on a
different page no bonus fires in `_same_marker_type`, so the returned
value is `0.95`, observably below the `1.0` the claim requires. -/
theorem calcMatchConfidence_exact_not_one :
    calcMatchConfidence ⟨('¹' :: []), 1, 0, 0, []⟩ ⟨('¹' :: []), [], 2, 0⟩ = 19/20 ∧
    (19/20 : ℚ) ≠ 1 := by
  constructor
  · simp only [calcMatchConfidence, normalizeMarker, sameMarkerType, startsWithChar]
    norm_num [min_def]
    rw [if_neg (by decide :
      ¬(((((('¹' = '*' ∨ '¹' = '※') ∨ '¹' = '注') ∨ '¹' = '†') ∨ '¹' = '‡') ∨
        '¹' = '[') ∨ '¹' = '('))]
    norm_num
  · norm_num

/-- Claim C6 (code bug): `match_markers_to_definitions` raises `TypeError`
whenever both argument lists are non-empty, because the unhashable
`FootnoteDefinition` dataclass is used in a Python `set`; it never builds
the match list whose invariant the claim states. -/
theorem matchMarkersToDefinitions_raises :
    matchMarkersToDefinitions (⟨('*' :: '1' :: []), 1, 0, 0, []⟩ :: [])
        (⟨('*' :: '1' :: []), ('a' :: []), 1, 0⟩ :: []) =
      .error (("TypeError: unhashable type: FootnoteDefinition").data) := rfl

/-- Claim C9 counterexample: on the five dimension scores
`[0, 0, 100, 100, 100]` (variance `2400`) the code returns `0.5`, while
the claimed formula `max 0.3 (1 - variance/1000)` gives `0.3`. -/
theorem calculateConfidence_ne_claimed :
    calculateConfidence (0 :: 0 :: 100 :: 100 :: 100 :: []) ≠
      claimedConfidenceC9 (0 :: 0 :: 100 :: 100 :: 100 :: []) := by
  norm_num [calculateConfidence, claimedConfidenceC9, listVariance, listAvg,
    min_def, max_def]

/-- Claim C9 as amended: for five dimension scores the confidence equals
`1 - min(0.5, variance/1000)`; the `0.5` cap on the variance penalty keeps
the result in `[0.5, 1]`, so the `0.3` floor of the claim never binds. -/
theorem calculateConfidence_characterization (s₁ s₂ s₃ s₄ s₅ : ℚ) :
    calculateConfidence (s₁ :: s₂ :: s₃ :: s₄ :: s₅ :: []) =
      1 - min (1/2) (listVariance (s₁ :: s₂ :: s₃ :: s₄ :: s₅ :: []) / 1000) ∧
    1/2 ≤ calculateConfidence (s₁ :: s₂ :: s₃ :: s₄ :: s₅ :: []) ∧
    calculateConfidence (s₁ :: s₂ :: s₃ :: s₄ :: s₅ :: []) ≤ 1 := by
  have hv : 0 ≤ listVariance (s₁ :: s₂ :: s₃ :: s₄ :: s₅ :: []) := by
    have : 0 ≤ ((s₁ :: s₂ :: s₃ :: s₄ :: s₅ :: []).map
        (fun s => (s - listAvg (s₁ :: s₂ :: s₃ :: s₄ :: s₅ :: [])) ^ 2)).sum := by
      apply List.sum_nonneg
      intro x hx
      simp only [List.mem_map] at hx
      obtain ⟨y, _, hy⟩ := hx
      rw [← hy]
      positivity
    unfold listVariance
    positivity
  set v := listVariance (s₁ :: s₂ :: s₃ :: s₄ :: s₅ :: []) with hvdef
  have hmin0 : 0 ≤ min (1/2 : ℚ) (v / 1000) := le_min (by norm_num) (by positivity)
  have hminh : min (1/2 : ℚ) (v / 1000) ≤ 1/2 := min_le_left _ _
  have hconf1 : 1 - min (1/2 : ℚ) (v / 1000) ≤ 1 := by linarith
  have hconf2 : (1/2 : ℚ) ≤ 1 - min (1/2 : ℚ) (v / 1000) := by linarith
  have hcc : calculateConfidence (s₁ :: s₂ :: s₃ :: s₄ :: s₅ :: []) =
      1 - min (1/2) (v / 1000) := by
    rw [calculateConfidence]
    simp only [List.isEmpty_cons, if_false, Bool.false_eq_true]
    rw [← hvdef, min_eq_right hconf1, max_eq_right (by linarith)]
  exact ⟨hcc, by rw [hcc]; exact hconf2, by rw [hcc]; exact hconf1⟩

/-! ## extractor.py : metadata filtering and column detection -/

/-- A pdfplumber word dictionary, restricted to the keys read by
`JapanesePDFExtractor`; Python dict equality (`other_word == word`)
becomes structure equality. -/
structure WordBox where
  text : List Char
  x0 : ℚ
  x1 : ℚ
  top : ℚ
  bottom : ℚ
deriving DecidableEq

/-- Horizontal center `(w['x0'] + w['x1']) / 2`. -/
def centerX (w : WordBox) : ℚ := (w.x0 + w.x1) / 2

/-- Vertical center `(w['top'] + w['bottom']) / 2`. -/
def centerY (w : WordBox) : ℚ := (w.top + w.bottom) / 2

/-- Squared distance between centers; the source compares
`((dx)**2 + (dy)**2) ** 0.5 < distance`, which over the rationals (both
sides non-negative) is `dx^2 + dy^2 < distance^2`. -/
def dist2 (a b : WordBox) : ℚ :=
  (centerX a - centerX b) ^ 2 + (centerY a - centerY b) ^ 2

/-- Number of words of `all_words` other than `word` (by dict equality)
whose center lies strictly within `distance` of the center of `word`. -/
def nearbyCount (word : WordBox) (all_words : List WordBox) (distance : ℚ) : Nat :=
  (all_words.filter
    (fun o => !(o = word) && decide (dist2 word o < distance ^ 2))).length

/-- Translation of `JapanesePDFExtractor._has_nearby_content`: the loop
early-returns `True` at two nearby words and otherwise returns
`nearby_count > 0`, which is `True` exactly when at least one other word
lies within the distance. -/
def hasNearbyContent (word : WordBox) (all_words : List WordBox)
    (distance : ℚ) : Bool :=
  0 < nearbyCount word all_words distance

/-- Translation of `JapanesePDFExtractor._is_page_number_not_content`
(the `text` argument is unused by the source body as well). -/
def isPageNumberNotContent (text : List Char) (word : WordBox)
    (page_height page_width : ℚ) (all_words : List WordBox) : Bool :=
  let in_top_margin := decide (word.top < page_height * (1/10))
  let in_bottom_margin := decide (word.top > page_height * (9/10))
  if !(in_top_margin || in_bottom_margin) then false
  else if hasNearbyContent word all_words 50 then false
  else
    let word_center_x := (word.x0 + word.x1) / 2
    let page_center_x := page_width / 2
    let is_centered := decide (|word_center_x - page_center_x| < page_width * (2/10))
    let in_left_corner := decide (word.x0 < page_width * (2/10))
    let in_right_corner := decide (word.x1 > page_width * (8/10))
    if (in_top_margin || in_bottom_margin) &&
        (is_centered || in_left_corner || in_right_corner) then true
    else false

/-- The `self.section_patterns` list (each is used with `re.match`, i.e.
anchored at the start of the string, no flags). -/
def sectionPatterns : List (List RItem) :=
  [ [.bol, .cls pyIsDigit .plus, .lit '.', .cls pyIsDigit .plus],
    [.bol, .lit '(', .cls pyIsDigit .plus, .lit ')'],
    [.bol, .cls (fun c => '①' ≤ c && c ≤ '⑳') .one],
    [.bol, .cls pyIsDigit .plus, .cls (fun c => c = ')' || c = '）') .one],
    [.bol, .cls (fun c => c = '第') (.between 0 1), .cls pyIsDigit .plus,
      .cls (fun c => c = '章' || c = '条' || c = '項' || c = '節' || c = '款' ||
        c = '目') .one],
    [.bol, .cls pyIsDigit .plus, .lit '.'],
    [.bol, .cls (fun c => c = '一' || c = '二' || c = '三' || c = '四' ||
        c = '五' || c = '六' || c = '七' || c = '八' || c = '九' || c = '十') .plus,
      .cls (fun c => c = '、' || c = '.') .one] ]

/-- The `self.footnote_markers` list of the extractor. -/
def footnoteMarkerPatterns : List (List RItem) :=
  [ [.bol, .lit '*', .cls pyIsDigit .plus],
    [.bol, .lit '※', .cls pyIsDigit .star],
    [.bol, .lit '注', .cls pyIsDigit .star],
    [.bol, .lit '†'],
    [.bol, .lit '‡'],
    [.bol, .lit '[', .cls pyIsDigit .plus, .lit ']'],
    [.bol, .lit '(', .lit '*', .cls pyIsDigit .plus, .lit ')'] ]

/-- The `self.strict_page_patterns` list (matched with `re.IGNORECASE`;
the `$` anchor is the single-line one). -/
def strictPagePatterns : List (List RItem) :=
  [ [.bol] ++ lits ("Page") ++ [.cls pyIsSpace .plus, .cls pyIsDigit .plus, .eolS],
    [.bol] ++ lits ("ページ") ++ [.cls pyIsSpace .star, .cls pyIsDigit .plus, .eolS],
    [.bol, .lit '-', .cls pyIsSpace .star, .cls pyIsDigit .plus,
      .cls pyIsSpace .star, .lit '-', .eolS],
    [.bol, .cls pyIsDigit .plus, .cls pyIsSpace .star, .lit '/',
      .cls pyIsSpace .star, .cls pyIsDigit .plus, .eolS],
    [.bol, .lit 'p', .lit '.', .cls pyIsSpace .star, .cls pyIsDigit .plus, .eolS],
    [.bol, .lit 'P', .lit '.', .cls pyIsSpace .star, .cls pyIsDigit .plus, .eolS] ]

/-- Translation of `JapanesePDFExtractor._is_section_number`. -/
def isSectionNumber (text : List Char) : Bool :=
  sectionPatterns.any (fun p => reMatch false p text)

/-- The pattern `^\d+$` of rule 5. -/
def allDigitsPat : List RItem :=
  [.bol, .cls pyIsDigit .plus, .eolS]

/-- config.py: `REMOVE_PAGE_NUMBERS = True`. -/
def removePageNumbers : Bool := true

/-- config.py: `REMOVE_HEADERS_FOOTERS = True`. -/
def removeHeadersFooters : Bool := true

/-- The per-word loop of `JapanesePDFExtractor._filter_metadata`;
`all_words` is the full input list, passed unchanged to the rule-5 page
number check.  Rule 6 of the source is entirely commented out. -/
def filterMetadataGo (headers footers : List (List Char))
    (page_height page_width : ℚ) (all_words : List WordBox) :
    List WordBox → List WordBox
  | [] => []
  | word :: rest =>
      let keep := filterMetadataGo headers footers page_height page_width all_words rest
      let text := pyStrip word.text
      if text = [] then keep
      else if isSectionNumber text then word :: keep
      else if footnoteMarkerPatterns.any (fun p => reMatch false p text) then
        word :: keep
      else if removePageNumbers &&
          strictPagePatterns.any (fun p => reMatch true p text) then keep
      else if removeHeadersFooters &&
          (headers.contains text || footers.contains text) then keep
      else if reMatch false allDigitsPat text && text.length ≤ 3 &&
          isPageNumberNotContent text word page_height page_width all_words then
        keep
      else word :: keep

/-- Translation of `JapanesePDFExtractor._filter_metadata`. -/
def filterMetadata (words : List WordBox) (headers footers : List (List Char))
    (page_height page_width : ℚ) : List WordBox :=
  filterMetadataGo headers footers page_height page_width words words

/-- Claim C7: `_is_page_number_not_content` classifies a box as a page
number only when it sits in the top or bottom 10 percent band, has fewer
than 2 other boxes within 50 units (indeed it requires zero), and is
horizontally centered within 20 percent of the page center or lies in a
left/right 20 percent corner; in particular it keeps any box with 2 or
more neighbours within 50 units. -/
theorem isPageNumberNotContent_necessary (text : List Char) (word : WordBox)
    (page_height page_width : ℚ) (all_words : List WordBox) :
    (isPageNumberNotContent text word page_height page_width all_words = true →
      (word.top < page_height * (1/10) ∨ word.top > page_height * (9/10)) ∧
      nearbyCount word all_words 50 < 2 ∧
      (|(word.x0 + word.x1) / 2 - page_width / 2| < page_width * (2/10) ∨
       word.x0 < page_width * (2/10) ∨ word.x1 > page_width * (8/10))) ∧
    (2 ≤ nearbyCount word all_words 50 →
      isPageNumberNotContent text word page_height page_width all_words = false) := by
  constructor
  · intro h
    rw [isPageNumberNotContent] at h
    dsimp only at h
    split_ifs at h with h1 h2 h3
    all_goals
      first
        | exact absurd h Bool.false_ne_true
        | (have h3' := h3
           simp only [Bool.and_eq_true, Bool.or_eq_true, decide_eq_true_eq] at h3'
           refine ⟨h3'.1, ?_, or_assoc.mp h3'.2⟩
           have hn : hasNearbyContent word all_words 50 = false := by
             simpa using h2
           simp only [hasNearbyContent, decide_eq_false_iff_not, not_lt,
             Nat.le_zero] at hn
           omega)
  · intro hc
    have hnb : hasNearbyContent word all_words 50 = true := by
      simp only [hasNearbyContent, decide_eq_true_eq]
      omega
    rw [isPageNumberNotContent]
    dsimp only
    split_ifs <;> simp_all

/-- Witness for C7: a lone digit box in the top-left corner of a
100 by 100 page is classified as a page number, and the same box with two
neighbours within 50 units is kept. -/
theorem isPageNumberNotContent_necessary_witness :
    ((WordBox.mk (('5') :: []) 0 10 0 5).top < 100 * (1/10) ∨
     (WordBox.mk (('5') :: []) 0 10 0 5).top > 100 * (9/10)) ∧
    nearbyCount (WordBox.mk (('5') :: []) 0 10 0 5)
      ((WordBox.mk (('5') :: []) 0 10 0 5) :: []) 50 < 2 ∧
    (|((WordBox.mk (('5') :: []) 0 10 0 5).x0 +
        (WordBox.mk (('5') :: []) 0 10 0 5).x1) / 2 - 100 / 2| < 100 * (2/10) ∨
     (WordBox.mk (('5') :: []) 0 10 0 5).x0 < 100 * (2/10) ∨
     (WordBox.mk (('5') :: []) 0 10 0 5).x1 > 100 * (8/10)) ∧
    isPageNumberNotContent (('5') :: []) (WordBox.mk (('5') :: []) 0 10 0 5)
      100 100
      ((WordBox.mk (('5') :: []) 0 10 0 5) ::
       (WordBox.mk (('a') :: []) 0 10 6 8) ::
       (WordBox.mk (('b') :: []) 2 12 6 8) :: []) = false := by
  have h1 := (isPageNumberNotContent_necessary (('5') :: [])
    (WordBox.mk (('5') :: []) 0 10 0 5) 100 100
    ((WordBox.mk (('5') :: []) 0 10 0 5) :: [])).1
    (by with_unfolding_all decide)
  have h2 := (isPageNumberNotContent_necessary (('5') :: [])
    (WordBox.mk (('5') :: []) 0 10 0 5) 100 100
    ((WordBox.mk (('5') :: []) 0 10 0 5) ::
     (WordBox.mk (('a') :: []) 0 10 6 8) ::
     (WordBox.mk (('b') :: []) 2 12 6 8) :: [])).2
    (by with_unfolding_all decide)
  exact ⟨h1.1, h1.2.1, h1.2.2, h2⟩

/-- config.py: `COLUMN_GAP_THRESHOLD = 50`. -/
def columnGapThreshold : ℚ := 50

/-- Python `sorted(words, key=lambda w: w['x0'])`: a stable sort on the
`x0` key, modelled by insertion sort (any two stable sorts agree). -/
def sortByX0 (words : List WordBox) : List WordBox :=
  words.insertionSort (fun a b => a.x0 ≤ b.x0)

/-- The splitting loop of `_detect_columns` over the sorted list: `prev`
is `sorted_words[i-1]`, `cur` the current column in order. -/
def splitColumnsGo (prev : WordBox) (cur : List WordBox) :
    List WordBox → List (List WordBox)
  | [] => [cur]
  | w :: rest =>
      if w.x0 - prev.x1 > columnGapThreshold then
        cur :: splitColumnsGo w [w] rest
      else
        splitColumnsGo w (cur ++ [w]) rest

/-- Translation of `JapanesePDFExtractor._detect_columns` (the
`page_width` argument is unused by the source body as well). -/
def detectColumns (words : List WordBox) (page_width : ℚ) :
    List (List WordBox) :=
  match sortByX0 words with
  | [] => []
  | w :: rest => splitColumnsGo w [w] rest

instance : IsTotal WordBox (fun a b => a.x0 ≤ b.x0) :=
  ⟨fun a b => le_total a.x0 b.x0⟩

instance : IsTrans WordBox (fun a b => a.x0 ≤ b.x0) :=
  ⟨fun _ _ _ h h2 => le_trans h h2⟩

theorem sorted_perm_eq_of_nodup_keys :
    ∀ {l₁ l₂ : List WordBox}, l₁.Perm l₂ →
      l₁.Sorted (fun a b => a.x0 ≤ b.x0) →
      l₂.Sorted (fun a b => a.x0 ≤ b.x0) →
      (l₁.map WordBox.x0).Nodup → l₁ = l₂ := by
  intro l₁
  induction l₁ with
  | nil => intro l₂ hp _ _ _; exact (hp.nil_eq).symm ▸ rfl
  | cons a t₁ ih =>
    intro l₂ hp hs₁ hs₂ hd
    cases l₂ with
    | nil => exact absurd hp.symm (by simp)
    | cons b t₂ =>
      by_cases hab : a = b
      · subst hab
        exact congrArg (a :: ·) (ih hp.cons_inv hs₁.of_cons hs₂.of_cons
          (by simpa using hd.of_cons))
      · exfalso
        have hbmem : b ∈ t₁ := by
          have hm : b ∈ a :: t₁ := hp.mem_iff.mpr (List.mem_cons_self b t₂)
          exact (List.mem_cons.mp hm).resolve_left (fun hba => hab hba.symm)
        have hamem : a ∈ t₂ := by
          have : a ∈ b :: t₂ := hp.mem_iff.mp (List.mem_cons_self a t₁)
          exact (List.mem_cons.mp this).resolve_left hab
        have h1 : a.x0 ≤ b.x0 := List.rel_of_sorted_cons hs₁ b hbmem
        have h2 : b.x0 ≤ a.x0 := List.rel_of_sorted_cons hs₂ a hamem
        have heq : a.x0 = b.x0 := le_antisymm h1 h2
        have : a.x0 ∉ t₁.map WordBox.x0 := by
          have := hd
          simp only [List.map_cons, List.nodup_cons] at this
          exact this.1
        exact this (heq ▸ List.mem_map_of_mem WordBox.x0 hbmem)

/-- Claim C8 as amended: when no two word boxes share the same `x0`,
`_detect_columns` on any permutation agrees with `_detect_columns` on the
list sorted by `x0` (boxes with equal `x0` can be ordered differently by
the stable sort depending on input order, changing the columns). -/
theorem detectColumns_perm_invariant (l lp : List WordBox) (page_width : ℚ)
    (hp : lp.Perm l) (hd : (l.map WordBox.x0).Nodup) :
    detectColumns lp page_width = detectColumns (sortByX0 l) page_width := by
  have hsorted1 : (sortByX0 lp).Sorted (fun a b => a.x0 ≤ b.x0) :=
    List.sorted_insertionSort _ lp
  have hsorted2 : (sortByX0 l).Sorted (fun a b => a.x0 ≤ b.x0) :=
    List.sorted_insertionSort _ l
  have hperm : (sortByX0 lp).Perm (sortByX0 l) :=
    (List.perm_insertionSort _ lp).trans (hp.trans (List.perm_insertionSort _ l).symm)
  have hdp : ((sortByX0 lp).map WordBox.x0).Nodup := by
    refine (List.Perm.nodup_iff (List.Perm.map WordBox.x0 ?_)).mpr hd
    exact (List.perm_insertionSort _ lp).trans hp
  have hsort : sortByX0 lp = sortByX0 l :=
    sorted_perm_eq_of_nodup_keys hperm hsorted1 hsorted2 hdp
  have hidem : sortByX0 (sortByX0 l) = sortByX0 l :=
    List.Sorted.insertionSort_eq hsorted2
  rw [detectColumns, detectColumns, hsort, hidem]

/-- An x0-tie with different x1: box A runs from 0 to 100, box B sits at
0 with zero width, box C starts at 60. -/
def boxA : WordBox := WordBox.mk (('a') :: []) 0 100 0 10

/-- Second box of the C8 counterexample. -/
def boxB : WordBox := WordBox.mk (('b') :: []) 0 0 0 10

/-- Third box of the C8 counterexample. -/
def boxC : WordBox := WordBox.mk (('c') :: []) 60 70 0 10

/-- Claim C8 counterexample: `[boxB, boxA, boxC]` is already sorted by
`x0`; permuting the two boxes tied at `x0 = 0` changes which `x1` the gap
test sees, so the permutation `[boxA, boxB, boxC]` splits into different
columns than the sorted list. -/
theorem detectColumns_perm_counterexample :
    (boxA :: boxB :: boxC :: []).Perm (boxB :: boxA :: boxC :: []) ∧
    sortByX0 (boxB :: boxA :: boxC :: []) = boxB :: boxA :: boxC :: [] ∧
    detectColumns (boxA :: boxB :: boxC :: []) 600 ≠
      detectColumns (sortByX0 (boxB :: boxA :: boxC :: [])) 600 := by
  refine ⟨List.Perm.swap boxB boxA (boxC :: []), ?_, ?_⟩ <;>
    with_unfolding_all decide

/-- Witness for the amended C8 at concrete boxes with distinct `x0`. -/
theorem detectColumns_perm_invariant_witness :
    detectColumns (boxC :: boxA :: []) 600 =
      detectColumns (sortByX0 (boxA :: boxC :: [])) 600 :=
  detectColumns_perm_invariant (boxA :: boxC :: []) (boxC :: boxA :: []) 600
    (List.Perm.swap boxA boxC []) (by with_unfolding_all decide)

theorem filterMetadataGo_no_blank (headers footers : List (List Char))
    (page_height page_width : ℚ) (all_words : List WordBox) :
    ∀ (l : List WordBox) (w : WordBox),
      w ∈ filterMetadataGo headers footers page_height page_width all_words l →
      pyStrip w.text ≠ [] := by
  intro l
  induction l with
  | nil =>
    intro w hw
    simp [filterMetadataGo] at hw
  | cons word rest ih =>
    intro w hw
    rw [filterMetadataGo] at hw
    split_ifs at hw with h1 h2 h3 h4 h5 h6 <;>
      first
        | exact ih w hw
        | (rcases List.mem_cons.mp hw with rfl | hmem
           · exact h1
           · exact ih w hmem)

/-- Claim C10: every word box returned by `_filter_metadata` has
non-blank text; boxes whose text strips to the empty string are dropped
by the first guard before any keep rule applies. -/
theorem filterMetadata_no_blank (words : List WordBox)
    (headers footers : List (List Char)) (page_height page_width : ℚ) :
    ∀ w ∈ filterMetadata words headers footers page_height page_width,
      pyStrip w.text ≠ [] :=
  fun w hw => filterMetadataGo_no_blank headers footers page_height page_width
    words words w hw

/-- Witness for C10: a whitespace-only box is dropped and a real word box
is kept; the kept box has non-blank text. -/
theorem filterMetadata_no_blank_witness :
    pyStrip (WordBox.mk (('x') :: []) 0 1 0 1).text ≠ [] :=
  filterMetadata_no_blank
    ((WordBox.mk ((' ') :: []) 0 1 0 1) :: (WordBox.mk (('x') :: []) 0 1 0 1) :: [])
    [] [] 100 100 (WordBox.mk (('x') :: []) 0 1 0 1)
    (by with_unfolding_all decide)

/-! ## output_formatter.py : format_document and split_by_pages -/

/-- ASCII digit character for `n < 10`. -/
def digitChar (n : Nat) : Char := Char.ofNat (48 + n)

/-- Decimal digits of `n`, with structural fuel (`n + 1` always
suffices). -/
def natDigitsGo : Nat → Nat → List Char
  | 0, _ => []
  | fuel + 1, n =>
      if n < 10 then digitChar n :: []
      else natDigitsGo fuel (n / 10) ++ digitChar (n % 10) :: []

/-- Python `str(n)` for a natural number. -/
def natDigits (n : Nat) : List Char := natDigitsGo (n + 1) n

/-- Python `"-" * n`. -/
def dashes (n : Nat) : List Char := List.replicate n '-'

/-- The default `self.marker_length = 60`. -/
def markerLength : Nat := 60

/-- The word `START`. -/
def startWord : List Char := ("START").data

/-- The word `END`. -/
def endWord : List Char := ("END").data

/-- The interpolation `marker_text = f" PAGE {page_num} {marker_type} "`. -/
def markerText (page_num : Nat) (ty : List Char) : List Char :=
  (" PAGE ").data ++ natDigits page_num ++ (' ' :: []) ++ ty ++ (' ' :: [])

/-- Translation of `OutputFormatter._create_page_marker` with the default
dash style: when `padding = (60 - len(marker_text)) // 2` is positive the
text is padded with dashes on both sides, else the bare text is
returned.  (`padding > 0` is exactly `len + 2 <= 60`, where the Python
floor division coincides with natural division.) -/
def createPageMarker (page_num : Nat) (ty : List Char) : List Char :=
  let mt := markerText page_num ty
  if mt.length + 2 ≤ markerLength then
    dashes ((markerLength - mt.length) / 2) ++ mt ++
      dashes (markerLength - mt.length - (markerLength - mt.length) / 2)
  else mt

/-- The document header of `_create_header` with `metadata=None` and
`add_timestamp=False`. -/
def createHeader (filename : List Char) : List Char :=
  ("[DOCUMENT FILENAME: ").data ++ filename ++ (']' :: [])

/-- Python `"\n".join(parts)`. -/
def joinNL : List (List Char) → List Char
  | [] => []
  | p :: [] => p
  | p :: q :: rest => p ++ '\n' :: joinNL (q :: rest)

/-- The parts appended per page by `format_document`
(`enumerate(pages, 1)`): START marker, blank, stripped page text, blank,
END marker, blank. -/
def pageParts (i : Nat) : List (List Char) → List (List Char)
  | [] => []
  | p :: rest =>
      createPageMarker i startWord :: [] :: pyStrip p :: [] ::
        createPageMarker i endWord :: [] :: pageParts (i + 1) rest

/-- State machine of `re.sub(r'\n{4,}', '\n\n\n', text)`: every maximal
newline run keeps its first `min(run, 3)` newlines, so runs of four or
more are replaced by exactly three; `k` counts the newlines of the
current run already seen. -/
def collapseGo : Nat → List Char → List Char
  | _, [] => []
  | k, c :: rest =>
      if c = '\n' then
        if k < 3 then '\n' :: collapseGo (k + 1) rest
        else collapseGo (k + 1) rest
      else c :: collapseGo 0 rest

/-- The `re.sub(r'\n{4,}', '\n\n\n', text)` cleanup of `format_document`. -/
def collapseNewlines (s : List Char) : List Char := collapseGo 0 s

/-- Translation of `OutputFormatter.format_document` with `metadata=None`
and the default settings (`add_timestamp = add_statistics = False`):
header, blank line, page blocks, joined by newlines, newline runs
collapsed, and the result stripped. -/
def formatDocument (pages : List (List Char)) (filename : List Char) : List Char :=
  pyStrip (collapseNewlines
    (joinNL (createHeader filename :: [] :: pageParts 1 pages)))

/-- The literal `--- PAGE ` opening both marker patterns. -/
def pageTok : List Char := ("--- PAGE ").data

/-- The literal ` START ---`. -/
def startTok : List Char := (" START ---").data

/-- The literal ` END ---`. -/
def endTokTail : List Char := (" END ---").data

/-- The back-referenced end marker `--- PAGE {ds} END ---`. -/
def endTokOf (ds : List Char) : List Char := pageTok ++ ds ++ endTokTail

/-- First occurrence of `marker`: the text before it and the text after
it. -/
def findTok (marker : List Char) : List Char → Option (List Char × List Char)
  | [] => none
  | c :: rest =>
      if marker.isPrefixOf (c :: rest) then
        some ([], (c :: rest).drop marker.length)
      else
        match findTok marker rest with
        | some (pre, suf) => some (c :: pre, suf)
        | none => none

/-- One attempt of the pattern
`--- PAGE (\d+) START ---\s*(.*?)\s*--- PAGE \1 END ---` (with
`re.DOTALL`) anchored at the start of `s`, as in `split_by_pages`.  The
greedy `\d+` is the maximal digit run (it cannot backtrack because
` START` begins with a non-digit), and the lazy middle group bounded by
greedy `\s*` ends at the first occurrence of the back-referenced end
marker; together with the `.strip()` applied to the captured group this
yields the stripped text between the two marker matches. -/
def tryPageMatch (s : List Char) : Option (List Char × List Char) :=
  match dropWord false pageTok s with
  | none => none
  | some s1 =>
      let ds := s1.takeWhile pyIsDigit
      if ds.isEmpty then none
      else
        match dropWord false startTok (s1.drop ds.length) with
        | none => none
        | some s2 =>
            match findTok (endTokOf ds) s2 with
            | none => none
            | some (content, rest) => some (pyStrip content, rest)

/-- The `re.finditer` scan of `split_by_pages`: at each position try the
full pattern; on success record the page and continue after the match,
else advance one character.  Fuel is structural; one unit per position. -/
def splitScanGo : Nat → List Char → List (List Char)
  | 0, _ => []
  | fuel + 1, s =>
      match tryPageMatch s with
      | some (page, rest) => page :: splitScanGo fuel rest
      | none =>
          match s with
          | [] => []
          | _ :: rest => splitScanGo fuel rest

/-- Translation of `OutputFormatter.split_by_pages`. -/
def splitByPages (text : List Char) : List (List Char) :=
  splitScanGo (text.length + 1) text

/-- Two newlines. -/
def nlnl : List Char := ('\n' :: '\n' :: [])

/-- The collapsed middle of a page block: page text with its two-newline
borders, or three newlines when the page text strips to nothing (the
four newlines of the raw join collapse to three). -/
def midSection (p : List Char) : List Char :=
  if pyStrip p = [] then '\n' :: '\n' :: '\n' :: []
  else nlnl ++ pyStrip p ++ nlnl

/-- Residual dashes of the START marker line after the pattern match:
the right padding minus the three dashes consumed by ` START ---`. -/
def startTrail (i : Nat) : Nat :=
  markerLength - (markerText i startWord).length -
    (markerLength - (markerText i startWord).length) / 2 - 3

/-- Residual dashes of the END marker line before the pattern match. -/
def endLead (i : Nat) : Nat :=
  (markerLength - (markerText i endWord).length) / 2 - 3

/-- What `split_by_pages` recovers for page number `i` with text `p`:
the stripped text wrapped in the residual marker padding. -/
def recoveredPage (i : Nat) (p : List Char) : List Char :=
  pyStrip (dashes (startTrail i) ++ midSection p ++ dashes (endLead i))

/-- The recovered pages, numbered from `i`. -/
def recoveredPages : Nat → List (List Char) → List (List Char)
  | _, [] => []
  | i, p :: rest => recoveredPage i p :: recoveredPages (i + 1) rest

/-! ### Digit string facts -/

theorem natDigitsGo_fuel_irrel :
    ∀ n f₁ f₂, n < f₁ → n < f₂ → natDigitsGo f₁ n = natDigitsGo f₂ n := by
  intro n
  induction n using Nat.strong_induction_on with
  | _ n ih =>
    intro f₁ f₂ h₁ h₂
    match f₁, h₁, f₂, h₂ with
    | g₁ + 1, h₁, g₂ + 1, h₂ =>
      by_cases h10 : n < 10
      · simp [natDigitsGo, h10]
      · have hdiv : n / 10 < n := Nat.div_lt_self (by omega) (by omega)
        simp only [natDigitsGo, h10, if_false]
        rw [ih (n / 10) hdiv g₁ (n / 10 + 1) (by omega) (by omega),
          ih (n / 10) hdiv g₂ (n / 10 + 1) (by omega) (by omega)]

theorem natDigits_eq (n : Nat) :
    natDigits n = if n < 10 then digitChar n :: []
      else natDigits (n / 10) ++ digitChar (n % 10) :: [] := by
  rw [natDigits, natDigitsGo]
  by_cases h10 : n < 10
  · simp [h10]
  · have hdiv : n / 10 < n := Nat.div_lt_self (by omega) (by omega)
    simp only [h10, if_false]
    rw [natDigitsGo_fuel_irrel (n / 10) n (n / 10 + 1) hdiv (by omega)]
    rfl

theorem digitChar_isDigit {n : Nat} (h : n < 10) : (digitChar n).isDigit = true := by
  interval_cases n <;> decide

theorem natDigits_all_digit :
    ∀ n, ∀ c ∈ natDigits n, c.isDigit = true := by
  intro n
  induction n using Nat.strong_induction_on with
  | _ n ih =>
    intro c hc
    rw [natDigits_eq] at hc
    by_cases h10 : n < 10
    · simp only [h10, if_true, List.mem_singleton] at hc
      exact hc ▸ digitChar_isDigit h10
    · simp only [h10, if_false, List.mem_append, List.mem_singleton] at hc
      rcases hc with hc | hc
      · exact ih (n / 10) (Nat.div_lt_self (by omega) (by omega)) c hc
      · exact hc ▸ digitChar_isDigit (Nat.mod_lt n (by omega))

theorem natDigits_ne_nil (n : Nat) : natDigits n ≠ [] := by
  rw [natDigits_eq]
  by_cases h10 : n < 10 <;> simp [h10]

theorem natDigits_length_le :
    ∀ k, 1 ≤ k → ∀ n, n < 10 ^ k → (natDigits n).length ≤ k := by
  intro k
  induction k with
  | zero => omega
  | succ k ih =>
    intro _ n hn
    rw [natDigits_eq]
    by_cases h10 : n < 10
    · rw [if_pos h10]
      simp only [List.length_cons, List.length_nil]
      omega
    · have hk : 1 ≤ k := by
        by_contra hk0
        have : k = 0 := by omega
        subst this
        simp [pow_succ, pow_zero] at hn
        omega
      have hd : n / 10 < 10 ^ k := by
        by_contra hge
        push_neg at hge
        have : 10 * 10 ^ k ≤ 10 * (n / 10) := by omega
        have h2 : 10 * (n / 10) ≤ n := Nat.mul_div_le n 10
        rw [pow_succ] at hn
        omega
      simp only [h10, if_false, List.length_append, List.length_cons,
        List.length_nil]
      have := ih hk (n / 10) hd
      omega

theorem isDigit_ne_nl {c : Char} (h : c.isDigit = true) : c ≠ '\n' := by
  intro hc; subst hc; exact absurd h (by decide)

theorem isDigit_ne_dash {c : Char} (h : c.isDigit = true) : c ≠ '-' := by
  intro hc; subst hc; exact absurd h (by decide)

theorem isDigit_ne_space {c : Char} (h : c.isDigit = true) : c ≠ ' ' := by
  intro hc; subst hc; exact absurd h (by decide)

theorem isDigit_pyIsDigit {c : Char} (h : c.isDigit = true) : pyIsDigit c = true := by
  simp [pyIsDigit, h]

/-! ### Newline collapse facts -/

/-- A run of four newlines (the least pattern rewritten by the cleanup). -/
def fourNL : List Char := ('\n' :: '\n' :: '\n' :: '\n' :: [])

theorem collapseGo_cons_nonNL {c : Char} (hc : c ≠ '\n') (k : Nat) (t : List Char) :
    collapseGo k (c :: t) = c :: collapseGo 0 t := by
  simp [collapseGo, hc]

theorem collapseGo_append :
    ∀ (a : List Char) {d : Char}, a.getLast? = some d → d ≠ '\n' →
      ∀ k b, collapseGo k (a ++ b) = collapseGo k a ++ collapseGo 0 b := by
  intro a
  induction a with
  | nil => intro d hd; simp at hd
  | cons c a' ih =>
    intro d hd hdn k b
    cases a' with
    | nil =>
      simp only [List.getLast?_singleton, Option.some.injEq] at hd
      subst hd
      rw [List.cons_append, List.nil_append,
        collapseGo_cons_nonNL hdn, collapseGo_cons_nonNL hdn]
      rfl
    | cons e a'' =>
      have hd' : (e :: a'').getLast? = some d := by
        rwa [List.getLast?_cons_cons] at hd
      by_cases hc : c = '\n'
      · subst hc
        have hstep : ∀ (j : Nat) (x : List Char), collapseGo j ('\n' :: x) =
            if j < 3 then '\n' :: collapseGo (j + 1) x
            else collapseGo (j + 1) x := fun j x => by simp [collapseGo]
        rw [List.cons_append, hstep, hstep, ih hd' hdn (k + 1) b]
        by_cases hk : k < 3 <;> simp [hk]
      · rw [List.cons_append, collapseGo_cons_nonNL hc,
          collapseGo_cons_nonNL hc, ih hd' hdn 0 b]
        rfl

theorem collapseGo_eq_self :
    ∀ (a : List Char) (k : Nat),
      ¬ (fourNL <:+: (List.replicate k '\n' ++ a)) → collapseGo k a = a := by
  intro a
  induction a with
  | nil => intro k _; rfl
  | cons c t ih =>
    intro k hno
    by_cases hc : c = '\n'
    · subst hc
      have hk : k < 3 := by
        by_contra hk3
        push_neg at hk3
        apply hno
        have h4 : fourNL <+: List.replicate (k + 1) '\n' := by
          refine ⟨List.replicate (k + 1 - 4) '\n', ?_⟩
          rw [show fourNL = List.replicate 4 '\n' from rfl,
            ← List.replicate_add]
          congr 1
          omega
        have heq : List.replicate k '\n' ++ '\n' :: t =
            List.replicate (k + 1) '\n' ++ t := by
          rw [List.replicate_succ']
          simp
        rw [heq]
        exact (h4.trans (List.prefix_append _ t)).isInfix
      have hno2 : ¬ (fourNL <:+: (List.replicate (k + 1) '\n' ++ t)) := by
        intro hx
        apply hno
        rwa [List.replicate_succ', List.append_assoc, List.singleton_append] at hx
      simp only [collapseGo, if_pos rfl, hk, if_true, ih (k + 1) hno2]
    · have hno2 : ¬ (fourNL <:+: (List.replicate 0 '\n' ++ t)) := by
        intro hx
        simp only [List.replicate_zero, List.nil_append] at hx
        exact hno (hx.trans ((List.suffix_cons c t).trans
          (List.suffix_append _ _)).isInfix)
      rw [collapseGo_cons_nonNL hc, ih 0 hno2]

theorem collapse_pull_pre :
    ∀ (s tok : List Char), (∀ c ∈ tok, c ≠ '\n') →
      tok <+: collapseGo 0 s → tok <+: s := by
  intro s
  induction s with
  | nil => intro tok _ h; simpa [collapseGo] using h
  | cons c t ih =>
    intro tok htok h
    by_cases hc : c = '\n'
    · subst hc
      simp only [collapseGo, if_pos rfl, Nat.zero_lt_succ, if_true] at h
      cases tok with
      | nil => exact List.nil_prefix
      | cons d tok₂ =>
        rcases List.cons_prefix_cons.mp h with ⟨hd, _⟩
        exact absurd hd (htok d (List.mem_cons_self d tok₂))
    · rw [collapseGo_cons_nonNL hc] at h
      cases tok with
      | nil => exact List.nil_prefix
      | cons d tok₂ =>
        rcases List.cons_prefix_cons.mp h with ⟨hd, h₂⟩
        subst hd
        exact List.cons_prefix_cons.mpr
          ⟨rfl, ih tok₂ (fun x hx => htok x (List.mem_cons_of_mem _ hx)) h₂⟩

theorem collapse_pull_isInfix (tok : List Char) (htok : ∀ c ∈ tok, c ≠ '\n')
    (hne : tok ≠ []) :
    ∀ (s : List Char) (k : Nat), tok <:+: collapseGo k s → tok <:+: s := by
  intro s
  induction s with
  | nil =>
    intro k h
    exact absurd (List.eq_nil_of_infix_nil (by simpa [collapseGo] using h)) hne
  | cons c t ih =>
    intro k h
    by_cases hc : c = '\n'
    · subst hc
      by_cases hk : k < 3
      · simp only [collapseGo, if_pos rfl, hk, if_true] at h
        rcases List.infix_cons_iff.mp h with hp | hi
        · cases tok with
          | nil => exact absurd rfl hne
          | cons d tok₂ =>
            rcases List.cons_prefix_cons.mp hp with ⟨hd, _⟩
            exact absurd hd (htok d (List.mem_cons_self d tok₂))
        · exact (ih (k + 1) hi).trans (List.suffix_cons '\n' t).isInfix
      · simp only [collapseGo, if_pos rfl, hk, if_false] at h
        exact (ih (k + 1) h).trans (List.suffix_cons '\n' t).isInfix
    · rw [collapseGo_cons_nonNL hc] at h
      rcases List.infix_cons_iff.mp h with hp | hi
      · cases tok with
        | nil => exact absurd rfl hne
        | cons d tok₂ =>
          rcases List.cons_prefix_cons.mp hp with ⟨hd, h₂⟩
          subst hd
          exact (List.cons_prefix_cons.mpr ⟨rfl, collapse_pull_pre t tok₂
            (fun x hx => htok x (List.mem_cons_of_mem _ hx)) h₂⟩).isInfix
      · exact (ih 0 hi).trans (List.suffix_cons c t).isInfix

/-! ### Strip facts -/

theorem dropWhile_head_not {p : Char → Bool} :
    ∀ (l : List Char) {c : Char} {t : List Char},
      l.dropWhile p = c :: t → p c = false := by
  intro l
  induction l with
  | nil => intro c t h; simp at h
  | cons a l ih =>
    intro c t h
    rw [List.dropWhile_cons] at h
    split at h
    · exact ih h
    · cases h
      simp_all

theorem pyStrip_pre_dropWhile (s : List Char) :
    pyStrip s <+: s.dropWhile pyIsSpace := by
  have h := List.dropWhile_suffix (l := (s.dropWhile pyIsSpace).reverse)
    pyIsSpace
  have h2 := List.reverse_prefix.mpr h
  rwa [List.reverse_reverse] at h2

theorem pyStrip_isInfix (s : List Char) : pyStrip s <:+: s :=
  (pyStrip_pre_dropWhile s).isInfix.trans (List.dropWhile_suffix pyIsSpace).isInfix

theorem pyStrip_head_not_space {s : List Char} {c : Char} {t : List Char}
    (h : pyStrip s = c :: t) : pyIsSpace c = false := by
  have hp := pyStrip_pre_dropWhile s
  rw [h] at hp
  cases hu : s.dropWhile pyIsSpace with
  | nil => rw [hu] at hp; simp at hp
  | cons d u =>
    rw [hu] at hp
    rcases List.cons_prefix_cons.mp hp with ⟨hd, _⟩
    exact hd ▸ dropWhile_head_not s hu

theorem pyStrip_getLast_not_space {s : List Char} {c : Char}
    (h : (pyStrip s).getLast? = some c) : pyIsSpace c = false := by
  rw [show pyStrip s =
      ((s.dropWhile pyIsSpace).reverse.dropWhile pyIsSpace).reverse from rfl,
    List.getLast?_reverse] at h
  cases hv : (s.dropWhile pyIsSpace).reverse.dropWhile pyIsSpace with
  | nil => rw [hv] at h; simp at h
  | cons d v =>
    rw [hv] at h
    simp only [List.head?_cons, Option.some.injEq] at h
    exact h ▸ dropWhile_head_not _ hv

theorem pyStrip_of_clean {c : Char} (hc : pyIsSpace c = false) {y : List Char}
    {d : Char} (hd : (c :: y).getLast? = some d) (hdn : pyIsSpace d = false) :
    pyStrip ((c :: y) ++ ('\n' :: [])) = c :: y := by
  rw [show pyStrip ((c :: y) ++ ('\n' :: [])) =
    ((((c :: y) ++ ('\n' :: [])).dropWhile
      pyIsSpace).reverse.dropWhile pyIsSpace).reverse from rfl]
  rw [List.cons_append, List.dropWhile_cons, if_neg (by simp [hc])]
  rw [show (c :: (y ++ ('\n' :: []))) = (c :: y) ++ ('\n' :: []) from rfl]
  rw [List.reverse_append]
  rw [show ('\n' :: []).reverse ++ (c :: y).reverse =
    '\n' :: (c :: y).reverse from rfl]
  rw [List.dropWhile_cons, if_pos (by decide)]
  cases hrev : (c :: y).reverse with
  | nil => simp at hrev
  | cons e w =>
    have he : e = d := by
      have := List.head?_reverse (c :: y)
      rw [hrev, hd] at this
      simpa using this
    rw [List.dropWhile_cons, if_neg (by simp [he, hdn]), ← hrev,
      List.reverse_reverse]

/-! ### Prefix and infix decompositions over append -/

theorem prefix_append_cases {tok a b : List Char} (h : tok <+: a ++ b) :
    tok <+: a ∨ (a <+: tok ∧ tok.drop a.length <+: b) := by
  obtain ⟨t, ht⟩ := h
  rcases List.append_eq_append_iff.mp ht with ⟨w, hw1, _⟩ | ⟨w, hw1, hw2⟩
  · exact Or.inl ⟨w, hw1.symm⟩
  · refine Or.inr ⟨⟨w, hw1.symm⟩, ?_⟩
    rw [hw1, List.drop_left]
    exact ⟨t, hw2.symm⟩

theorem infix_append_cases {tok a b : List Char} (h : tok <:+: a ++ b) :
    tok <:+: a ∨ tok <:+: b ∨
      ∃ t₁ t₂, t₁ ++ t₂ = tok ∧ t₁ ≠ [] ∧ t₂ ≠ [] ∧ t₁ <:+ a ∧ t₂ <+: b := by
  obtain ⟨u, v, huv⟩ := h
  rw [List.append_assoc] at huv
  rcases List.append_eq_append_iff.mp huv with ⟨w, hw1, hw2⟩ | ⟨w, hw1, hw2⟩
  · rcases List.append_eq_append_iff.mp hw2 with ⟨x, hx1, hx2⟩ | ⟨x, hx1, hx2⟩
    · left
      exact ⟨u, x, by rw [hw1, hx1, List.append_assoc]⟩
    · by_cases hwnil : w = []
      · subst hwnil
        right; left
        simp only [List.nil_append] at hx1
        exact ⟨[], v, by rw [List.nil_append, hx1, hx2]⟩
      · by_cases hxnil : x = []
        · left
          rw [hxnil, List.append_nil] at hx1
          exact ⟨u, [], by rw [List.append_nil, hw1, hx1]⟩
        · right; right
          exact ⟨w, x, hx1.symm, hwnil, hxnil, ⟨u, hw1.symm⟩, ⟨v, hx2.symm⟩⟩
  · right; left
    exact ⟨w, v, by rw [hw2, List.append_assoc]⟩

theorem infix_replicate_eq {tok : List Char} {n : Nat} {c : Char}
    (h : tok <:+: List.replicate n c) : ∀ x ∈ tok, x = c :=
  fun x hx => List.eq_of_mem_replicate (h.subset hx)

theorem pre_replicate_eq {tok : List Char} {n : Nat} {c : Char}
    (h : tok <+: List.replicate n c) : ∀ x ∈ tok, x = c :=
  fun x hx => List.eq_of_mem_replicate (h.subset hx)

theorem suffix_short_of_append {s a b : List Char} (h : s <:+ a ++ b)
    (hl : s.length ≤ b.length) : s <:+ b := by
  have hr : s.reverse <+: b.reverse ++ a.reverse := by
    have h2 := List.reverse_prefix.mpr h
    rwa [List.reverse_append] at h2
  rcases prefix_append_cases hr with hp | ⟨hp, _⟩
  · exact List.reverse_prefix.mp hp
  · have h1 : b.reverse.length = s.reverse.length := by
      have h3 := hp.length_le
      simp only [List.length_reverse] at h3 ⊢
      omega
    have h2 := hp.eq_of_length h1
    rw [← List.reverse_reverse b, h2, List.reverse_reverse]

theorem suffix_mem_of_long {s y z : List Char} {c : Char}
    (h : s <:+ y ++ c :: z) (hl : z.length < s.length) : c ∈ s := by
  obtain ⟨u, hu⟩ := h
  have hlen : u.length + s.length = y.length + 1 + z.length := by
    have h2 := congrArg List.length hu
    simp only [List.length_append, List.length_cons] at h2
    omega
  have hule : u.length ≤ y.length := by omega
  have hs : s = (y ++ c :: z).drop u.length := by
    rw [← hu, List.drop_left]
  rw [hs, List.drop_append_of_le_length hule]
  simp

/-! ### Canonical shapes of the formatted document -/

/-- The 8-character token `--- PAGE` used in the round-trip side
conditions. -/
def pagePre : List Char := ("--- PAGE").data

/-- The exact text matched by `--- PAGE (\d+) START ---` at page `i`. -/
def startLit (i : Nat) : List Char := pageTok ++ natDigits i ++ startTok

/-- Left padding of the marker line for `START`. -/
def startPad (i : Nat) : Nat :=
  (markerLength - (markerText i startWord).length) / 2

/-- Left padding of the marker line for `END`. -/
def endPad (i : Nat) : Nat :=
  (markerLength - (markerText i endWord).length) / 2

/-- Residual dashes of the END marker line after the pattern match. -/
def endTrail (i : Nat) : Nat :=
  markerLength - (markerText i endWord).length - endPad i - 3

/-- The raw page blocks as joined by `"\n".join` (before newline
collapsing): each block is followed by one newline from the final blank
part, or two before the next block. -/
def bodyJ : Nat → List (List Char) → List Char
  | _, [] => []
  | i, p :: rest =>
      createPageMarker i startWord ++ nlnl ++ pyStrip p ++ nlnl ++
        createPageMarker i endWord ++
        (match rest with
         | [] => '\n' :: []
         | _ :: _ => nlnl ++ bodyJ (i + 1) rest)

/-- The page blocks after newline collapsing. -/
def bodyC : Nat → List (List Char) → List Char
  | _, [] => []
  | i, p :: rest =>
      createPageMarker i startWord ++ midSection p ++
        createPageMarker i endWord ++
        (match rest with
         | [] => '\n' :: []
         | _ :: _ => nlnl ++ bodyC (i + 1) rest)

/-- The page blocks of the final document (after the trailing newline is
stripped). -/
def bodyF : Nat → List (List Char) → List Char
  | _, [] => []
  | i, p :: rest =>
      createPageMarker i startWord ++ midSection p ++
        createPageMarker i endWord ++
        (match rest with
         | [] => []
         | _ :: _ => nlnl ++ bodyF (i + 1) rest)

theorem pageTok_eq :
    pageTok = '-' :: '-' :: '-' :: ' ' :: 'P' :: 'A' :: 'G' :: 'E' :: ' ' :: [] :=
  rfl

theorem markerText_length (i : Nat) (ty : List Char) :
    (markerText i ty).length = 8 + (natDigits i).length + ty.length := by
  simp only [markerText, List.length_append, List.length_cons, List.length_nil]
  have : (" PAGE ").data.length = 6 := rfl
  omega

/-- Padding facts for page numbers below `10 ^ 41`: both paddings are at
least three, so the regex tokens sit inside the marker lines. -/
theorem marker_arith {i : Nat} (h : (natDigits i).length ≤ 41) :
    ((markerText i startWord).length + 2 ≤ markerLength ∧
     3 ≤ startPad i ∧ 3 ≤ markerLength - (markerText i startWord).length - startPad i) ∧
    ((markerText i endWord).length + 2 ≤ markerLength ∧
     3 ≤ endPad i ∧ 3 ≤ markerLength - (markerText i endWord).length - endPad i) := by
  have hs := markerText_length i startWord
  have he := markerText_length i endWord
  have hsw : startWord.length = 5 := rfl
  have hew : endWord.length = 3 := rfl
  rw [hsw] at hs
  rw [hew] at he
  have hml : markerLength = 60 := rfl
  simp only [startPad, endPad, hs, he, hml]
  omega

/-! ### Scanner facts -/

theorem charEq_false_iff {a b : Char} : charEq false a b = true ↔ a = b := by
  simp [charEq]

theorem dropWord_eq : ∀ {w s s' : List Char},
    dropWord false w s = some s' → w ++ s' = s := by
  intro w
  induction w with
  | nil =>
    intro s s' h
    rw [dropWord] at h
    cases h
    rfl
  | cons c w' ih =>
    intro s s' h
    cases s with
    | nil => exact absurd h (by rw [dropWord]; exact Option.noConfusion)
    | cons a s0 =>
      rw [dropWord] at h
      by_cases hc : charEq false a c = true
      · rw [if_pos hc] at h
        rw [List.cons_append, ih h, charEq_false_iff.mp hc]
      · rw [if_neg hc] at h
        exact absurd h Option.noConfusion

theorem dropWord_self : ∀ (w x : List Char), dropWord false w (w ++ x) = some x := by
  intro w
  induction w with
  | nil => intro x; rfl
  | cons c w' ih =>
    intro x
    rw [List.cons_append, dropWord, if_pos (charEq_false_iff.mpr rfl), ih]

theorem takeWhile_append_digits :
    ∀ (ds : List Char), (∀ c ∈ ds, pyIsDigit c = true) →
      ∀ {c : Char}, pyIsDigit c = false → ∀ (x : List Char),
      (ds ++ c :: x).takeWhile pyIsDigit = ds := by
  intro ds
  induction ds with
  | nil =>
    intro _ c hc x
    simp [List.takeWhile_cons, hc]
  | cons d ds' ih =>
    intro hds c hc x
    rw [List.cons_append, List.takeWhile_cons, if_pos (hds d (by simp)),
      ih (fun e he => hds e (by simp [he])) hc x]

theorem all_dash_of_pre3 {t z : List Char} (h : t <+: '-' :: '-' :: '-' :: z) :
    ∀ x ∈ t.take 3, x = '-' := by
  have h3 : t.take 3 <+: '-' :: '-' :: '-' :: z := (List.take_prefix 3 t).trans h
  rw [show ('-' :: '-' :: '-' :: z : List Char) = List.replicate 3 '-' ++ z
    from rfl] at h3
  rcases prefix_append_cases h3 with hp | ⟨hp, _⟩
  · exact pre_replicate_eq hp
  · have h2 : (t.take 3).length ≤ 3 := by
      rw [List.length_take]
      exact min_le_left _ _
    have hlen : (List.replicate 3 '-' : List Char).length = (t.take 3).length := by
      have h1 := hp.length_le
      simp only [List.length_replicate] at *
      omega
    rw [← hp.eq_of_length hlen]
    exact fun x hx => List.eq_of_mem_replicate hx

theorem not_pre_dashes (L z : List Char) (c : Char)
    (hc : c ∈ L.take 3) (hcd : c ≠ '-') : ¬ (L <+: '-' :: '-' :: '-' :: z) :=
  fun hp => absurd (all_dash_of_pre3 hp c hc) hcd

theorem pageTok_drop_not_pre {m : Nat} (h1 : 0 < m) (h2 : m < 9) (z : List Char) :
    ¬ (pageTok.drop m <+: '-' :: '-' :: '-' :: z) := by
  interval_cases m <;>
    first
      | exact not_pre_dashes _ z ' ' (by decide) (by decide)
      | exact not_pre_dashes _ z 'P' (by decide) (by decide)
      | exact not_pre_dashes _ z 'A' (by decide) (by decide)

theorem endTok_drop_take3 (ds : List Char) {m : Nat} (hm : m ≤ 6) :
    ((endTokOf ds).drop m).take 3 = (pageTok.drop m).take 3 := by
  rw [endTokOf, List.append_assoc,
    List.drop_append_of_le_length (by rw [pageTok_eq]; simp; omega),
    List.take_append_of_le_length (by rw [List.length_drop, pageTok_eq]; simp; omega)]

theorem endTok_drop_not_pre (ds : List Char) {m : Nat} (h1 : 0 < m) (h2 : m ≤ 3)
    (z : List Char) : ¬ ((endTokOf ds).drop m <+: '-' :: '-' :: '-' :: z) := by
  intro hp
  have hall := all_dash_of_pre3 hp
  rw [endTok_drop_take3 ds (by omega)] at hall
  interval_cases m <;> exact absurd (hall ' ' (by decide)) (by decide)

theorem space_mem_endTok_take (ds : List Char) {m : Nat} (h4 : 4 ≤ m) :
    ' ' ∈ (endTokOf ds).take m := by
  obtain ⟨m', rfl⟩ : ∃ m', m = m' + 4 := ⟨m - 4, by omega⟩
  rw [show endTokOf ds =
    '-' :: '-' :: '-' :: ' ' :: ('P' :: 'A' :: 'G' :: 'E' :: ' ' :: (ds ++ endTokTail))
    from rfl]
  simp [List.take_succ_cons]

theorem pageTok_no_nl : ∀ c ∈ pageTok, c ≠ '\n' := by decide

theorem endTok_no_nl {ds : List Char} (hds : ∀ c ∈ ds, c.isDigit = true) :
    ∀ c ∈ endTokOf ds, c ≠ '\n' := by
  intro c hc hceq
  subst hceq
  rw [endTokOf] at hc
  simp only [List.mem_append] at hc
  rcases hc with (hc | hc) | hc
  · exact absurd hc (by decide)
  · exact absurd (hds _ hc) (by decide)
  · exact absurd hc (by decide)

theorem endTok_length (ds : List Char) : (endTokOf ds).length = 17 + ds.length := by
  have h1 : pageTok.length = 9 := rfl
  have h2 : endTokTail.length = 8 := rfl
  rw [endTokOf]
  simp only [List.length_append, h1, h2]
  omega

theorem pagePre_pre_pageTok : pagePre <+: pageTok := by decide

theorem pagePre_pre_endTok (ds : List Char) : pagePre <+: endTokOf ds :=
  pagePre_pre_pageTok.trans
    ((List.prefix_append pageTok ds).trans (List.prefix_append _ endTokTail))

theorem splitScanGo_nil (fuel : Nat) : splitScanGo fuel [] = [] := by
  cases fuel <;> rfl

theorem splitScanGo_succ (fuel : Nat) (s : List Char) :
    splitScanGo (fuel + 1) s =
      match tryPageMatch s with
      | some (page, rest) => page :: splitScanGo fuel rest
      | none =>
          match s with
          | [] => []
          | _ :: rest => splitScanGo fuel rest := rfl

theorem tryPageMatch_none {s : List Char} (h : ¬ (pageTok <+: s)) :
    tryPageMatch s = none := by
  cases hd : dropWord false pageTok s with
  | none => rw [tryPageMatch, hd]
  | some s1 => exact absurd ⟨s1, dropWord_eq hd⟩ h

/-- The scanner drops text with no `--- PAGE ` occurrence and no dangling
prefix of one continued by the tail. -/
theorem splitScanGo_skip :
    ∀ (junk T : List Char) (fuel : Nat),
      junk.length ≤ fuel →
      ¬ (pageTok <:+: junk) →
      (∀ m, 0 < m → m < 9 → ¬ (pageTok.drop m <+: T)) →
      splitScanGo fuel (junk ++ T) = splitScanGo (fuel - junk.length) T := by
  intro junk
  induction junk with
  | nil => intro T fuel _ _ _; simp
  | cons c junk' ih =>
    intro T fuel hfuel hocc hstr
    cases fuel with
    | zero => simp at hfuel
    | succ f =>
      have hnp : ¬ (pageTok <+: c :: (junk' ++ T)) := by
        intro hp
        rw [← List.cons_append] at hp
        rcases prefix_append_cases hp with hp1 | ⟨hp1, hp2⟩
        · exact hocc hp1.isInfix
        · by_cases h9 : (c :: junk').length = 9
          · have heq : c :: junk' = pageTok := hp1.eq_of_length (h9.trans rfl)
            exact hocc (by rw [heq])
          · have hle := hp1.length_le
            have h9' : pageTok.length = 9 := rfl
            exact hstr (c :: junk').length (by simp) (by omega) hp2
      rw [List.cons_append, splitScanGo_succ]
      simp only [tryPageMatch_none hnp]
      show splitScanGo f (junk' ++ T) = splitScanGo (f + 1 - (c :: junk').length) T
      rw [ih T f (by simp at hfuel ⊢; omega)
        (fun h => hocc (h.trans (List.suffix_cons c junk').isInfix)) hstr]
      have harith : f - junk'.length = f + 1 - (c :: junk').length := by
        simp only [List.length_cons]
        omega
      rw [harith]

/-- `findTok` returns the first occurrence: if the marker does not occur
in `pre` and no proper prefix of it dangling at the end of `pre` is
continued by `tok ++ after`, the split is at the seam. -/
theorem findTok_of_first {tok : List Char} (hne : tok ≠ []) :
    ∀ (pre after : List Char), ¬ (tok <:+: pre) →
      (∀ m, 0 < m → m < tok.length → tok.take m <:+ pre →
        ¬ (tok.drop m <+: tok ++ after)) →
      findTok tok (pre ++ tok ++ after) = some (pre, after) := by
  intro pre
  induction pre with
  | nil =>
    intro after _ _
    simp only [List.nil_append]
    cases tok with
    | nil => exact absurd rfl hne
    | cons t0 tok' =>
      rw [List.cons_append, findTok,
        if_pos (List.isPrefixOf_iff_prefix.mpr ⟨after, by rw [List.cons_append]⟩)]
      rw [← List.cons_append, List.drop_left]
  | cons c pre' ih =>
    intro after hocc hstr
    have hnpre : ¬ (tok <+: c :: (pre' ++ (tok ++ after))) := by
      intro hp
      rw [← List.cons_append] at hp
      rcases prefix_append_cases hp with hp1 | ⟨hp1, hp2⟩
      · exact hocc hp1.isInfix
      · by_cases hlen : (c :: pre').length = tok.length
        · have heq : c :: pre' = tok := hp1.eq_of_length hlen
          exact hocc (by rw [heq])
        · have hle := hp1.length_le
          have htk : tok.take (c :: pre').length <:+ c :: pre' := by
            rw [← List.prefix_iff_eq_take.mp hp1]
          exact hstr (c :: pre').length (by simp) (by omega) htk hp2
    rw [show (c :: pre') ++ tok ++ after = c :: (pre' ++ (tok ++ after)) by simp]
    rw [findTok, if_neg (fun h => hnpre (List.isPrefixOf_iff_prefix.mp h))]
    have ihr := ih after (fun h => hocc (h.trans (List.suffix_cons c pre').isInfix))
      (fun m hm1 hm2 hsuf => hstr m hm1 hm2 (hsuf.trans (List.suffix_cons c pre')))
    rw [List.append_assoc] at ihr
    rw [ihr]

theorem endTok_ne_nil (ds : List Char) : endTokOf ds ≠ [] := by
  intro h
  have hl := endTok_length ds
  rw [h] at hl
  simp only [List.length_nil] at hl
  omega

/-- A successful match of the page pattern on a canonically shaped
block. -/
theorem tryPageMatch_canonical (i : Nat) (content after : List Char)
    (hocc : ¬ (endTokOf (natDigits i) <:+: content))
    (hstr : ∀ m, 0 < m → m < (endTokOf (natDigits i)).length →
      (endTokOf (natDigits i)).take m <:+ content →
      ¬ ((endTokOf (natDigits i)).drop m <+: endTokOf (natDigits i) ++ after)) :
    tryPageMatch (startLit i ++ (content ++ (endTokOf (natDigits i) ++ after))) =
      some (pyStrip content, after) := by
  rw [show startLit i ++ (content ++ (endTokOf (natDigits i) ++ after)) =
      pageTok ++ (natDigits i ++ (startTok ++ (content ++ (endTokOf (natDigits i) ++ after))))
      by simp [startLit]]
  rw [tryPageMatch, dropWord_self]
  have hds : ∀ c ∈ natDigits i, pyIsDigit c = true :=
    fun c hc => isDigit_pyIsDigit (natDigits_all_digit i c hc)
  have htw : (natDigits i ++ (startTok ++ (content ++ (endTokOf (natDigits i) ++ after)))).takeWhile
      pyIsDigit = natDigits i := by
    rw [show startTok ++ (content ++ (endTokOf (natDigits i) ++ after)) =
      ' ' :: (("START ---").data ++ (content ++ (endTokOf (natDigits i) ++ after))) from rfl]
    exact takeWhile_append_digits _ hds (by decide) _
  have hie : (natDigits i).isEmpty = false := by
    cases hnd : natDigits i with
    | nil => exact absurd hnd (natDigits_ne_nil i)
    | cons a l => rfl
  have hfind := findTok_of_first (endTok_ne_nil (natDigits i)) content after hocc hstr
  rw [List.append_assoc] at hfind
  simp only [htw, hie, Bool.false_eq_true, if_false, List.drop_left, dropWord_self, hfind]

theorem last_mem_right_piece {t₁ t₂ tok : List Char} (h : t₁ ++ t₂ = tok)
    (hne : t₂ ≠ []) {c : Char} (hc : tok.getLast? = some c) : c ∈ t₂ := by
  rw [← h, List.getLast?_append_of_ne_nil _ hne] at hc
  exact List.mem_of_getLast?_eq_some hc

theorem last_mem_suffix {t L : List Char} (h : t <:+ L) (hne : t ≠ [])
    {c : Char} (hc : L.getLast? = some c) : c ∈ t := by
  obtain ⟨pre, hpre⟩ := h
  exact last_mem_right_piece hpre hne hc

theorem head_mem_prefix {t : List Char} {b : Char} {L : List Char}
    (h : t <+: b :: L) (hne : t ≠ []) : b ∈ t := by
  cases t with
  | nil => exact absurd rfl hne
  | cons a tt =>
    rw [(List.cons_prefix_cons.mp h).1]
    simp

theorem pageTok_getLast : pageTok.getLast? = some ' ' := by decide

theorem space_mem_endTok (ds : List Char) : ' ' ∈ endTokOf ds :=
  List.mem_append_left _ (List.mem_append_left _ (by decide : ' ' ∈ pageTok))

theorem midSection_cons (p : List Char) : ∃ bb, midSection p = '\n' :: bb := by
  rw [midSection]
  split_ifs with h
  · exact ⟨_, rfl⟩
  · exact ⟨'\n' :: (pyStrip p ++ nlnl), rfl⟩

theorem midSection_getLast (p : List Char) : (midSection p).getLast? = some '\n' := by
  rw [midSection]
  split_ifs with h
  · rfl
  · rw [List.getLast?_append_of_ne_nil _ (by decide : nlnl ≠ [])]
    rfl

theorem midSection_snoc (p : List Char) : ∃ mi, midSection p = mi ++ ('\n' :: []) := by
  rw [midSection]
  split_ifs with h
  · exact ⟨'\n' :: '\n' :: [], rfl⟩
  · exact ⟨nlnl ++ pyStrip p ++ ('\n' :: []), by simp [nlnl]⟩

/-- `--- PAGE ` cannot appear by appending dashes to clean text: the
token ends in a space. -/
theorem no_pageTok_append_dashes {junk : List Char} (h : ¬ (pageTok <:+: junk))
    (k : Nat) : ¬ (pageTok <:+: junk ++ dashes k) := by
  intro hocc
  rcases infix_append_cases hocc with h1 | h1 | ⟨t₁, t₂, ht, hne1, hne2, hsuf, hpre⟩
  · exact h h1
  · exact absurd (infix_replicate_eq h1 ' ' (by decide)) (by decide)
  · have hsp : ' ' ∈ t₂ := last_mem_right_piece ht hne2 pageTok_getLast
    exact absurd (pre_replicate_eq hpre ' ' hsp) (by decide)

/-- Nor by appending newlines: the token is newline-free. -/
theorem no_pageTok_append_nlnl {junk : List Char} (h : ¬ (pageTok <:+: junk)) :
    ¬ (pageTok <:+: junk ++ nlnl) := by
  intro hocc
  rcases infix_append_cases hocc with h1 | h1 | ⟨t₁, t₂, ht, hne1, hne2, hsuf, hpre⟩
  · exact h h1
  · have h2 := h1.length_le
    rw [pageTok_eq] at h2
    simp [nlnl] at h2
  · have hnl : '\n' ∈ t₂ := head_mem_prefix hpre hne2
    have : '\n' ∈ pageTok := by
      rw [← ht]
      exact List.mem_append_right t₁ hnl
    exact absurd this (by decide)

/-- The header contains no `--- PAGE ` unless the filename does. -/
theorem no_pageTok_header {f : List Char} (hf : ¬ (pagePre <:+: f)) :
    ¬ (pageTok <:+: createHeader f) := by
  intro hocc
  rw [createHeader, List.append_assoc] at hocc
  rcases infix_append_cases hocc with h1 | h1 | ⟨t₁, t₂, ht, hne1, hne2, hsuf, hpre⟩
  · exact absurd h1 (by decide)
  · rcases infix_append_cases h1 with h2 | h2 | ⟨t₁, t₂, ht, hne1, hne2, hsuf, hpre⟩
    · exact hf (pagePre_pre_pageTok.isInfix.trans h2)
    · have h3 := h2.length_le
      rw [pageTok_eq] at h3
      simp at h3
    · have hrb : ']' ∈ t₂ := head_mem_prefix hpre hne2
      have : ']' ∈ pageTok := by
        rw [← ht]
        exact List.mem_append_right t₁ hrb
      exact absurd this (by decide)
  · have ht1 : pageTok.take t₁.length = t₁ := by
      rw [← ht]
      exact List.take_left t₁ t₂
    have hlen : t₁.length < 9 := by
      have h2 := congrArg List.length ht
      simp only [List.length_append] at h2
      have h9 : pageTok.length = 9 := rfl
      have hne : t₂.length ≠ 0 := fun hh => hne2 (List.length_eq_zero.mp hh)
      omega
    have hpos : 0 < t₁.length := by
      cases t₁ with
      | nil => exact absurd rfl hne1
      | cons a t => simp
    have hdec : ∀ m, m < 9 → 0 < m →
        ¬ (pageTok.take m <:+ ("[DOCUMENT FILENAME: ").data) := by decide
    exact hdec t₁.length hlen hpos (by rw [ht1]; exact hsuf)

/-- The end marker token does not occur in the in-block content: dashes,
then the collapsed page middle, then dashes. -/
theorem no_endTok_in_content (i : Nat) {p : List Char}
    (hp2 : ¬ (pagePre <:+: p)) (k₁ k₂ : Nat) :
    ¬ (endTokOf (natDigits i) <:+: dashes k₁ ++ (midSection p ++ dashes k₂)) := by
  have hnl : ∀ c ∈ endTokOf (natDigits i), c ≠ '\n' :=
    endTok_no_nl (natDigits_all_digit i)
  have hsp := space_mem_endTok (natDigits i)
  intro hocc
  rcases infix_append_cases hocc with h1 | h1 | ⟨t₁, t₂, ht, hne1, hne2, hsuf, hpre⟩
  · exact absurd (infix_replicate_eq h1 ' ' hsp) (by decide)
  · rcases infix_append_cases h1 with h2 | h2 | ⟨t₁, t₂, ht, hne1, hne2, hsuf, hpre⟩
    · -- inside the collapsed middle
      rw [midSection] at h2
      split_ifs at h2 with hstrip
      · exact absurd (h2.subset hsp) (by decide)
      · rcases infix_append_cases h2 with h3 | h3 | ⟨t₁, t₂, ht, hne1, hne2, hsuf, hpre⟩
        · rcases infix_append_cases h3 with h4 | h4 | ⟨t₁, t₂, ht, hne1, hne2, hsuf, hpre⟩
          · exact absurd (h4.subset hsp) (by decide)
          · exact hp2 ((pagePre_pre_endTok (natDigits i)).isInfix.trans
              (h4.trans (pyStrip_isInfix p)))
          · have hn : '\n' ∈ t₁ :=
              last_mem_suffix hsuf hne1 (by decide : nlnl.getLast? = some '\n')
            refine absurd rfl (hnl '\n' ?_)
            rw [← ht]
            exact List.mem_append_left t₂ hn
        · exact absurd (h3.subset hsp) (by decide)
        · have hn : '\n' ∈ t₂ := head_mem_prefix hpre hne2
          refine absurd rfl (hnl '\n' ?_)
          rw [← ht]
          exact List.mem_append_right t₁ hn
    · exact absurd (infix_replicate_eq h2 ' ' hsp) (by decide)
    · have hn : '\n' ∈ t₁ := last_mem_suffix hsuf hne1 (midSection_getLast p)
      refine absurd rfl (hnl '\n' ?_)
      rw [← ht]
      exact List.mem_append_left t₂ hn
  · -- straddling the first dashes into the middle
    obtain ⟨bb, hbb⟩ := midSection_cons p
    rw [hbb, List.cons_append] at hpre
    have hn : '\n' ∈ t₂ := head_mem_prefix hpre hne2
    refine absurd rfl (hnl '\n' ?_)
    rw [← ht]
    exact List.mem_append_right t₁ hn

/-- No dangling prefix of the end marker at the end of the content can
be continued by the marker itself and what follows. -/
theorem endTok_hstr (i : Nat) (p : List Char) (k₁ k₂ : Nat) (after : List Char) :
    ∀ m, 0 < m → m < (endTokOf (natDigits i)).length →
      (endTokOf (natDigits i)).take m <:+ dashes k₁ ++ (midSection p ++ dashes k₂) →
      ¬ ((endTokOf (natDigits i)).drop m <+: endTokOf (natDigits i) ++ after) := by
  intro m hm0 hmlen hsuf
  by_cases hm3 : m ≤ 3
  · rw [show endTokOf (natDigits i) ++ after =
      '-' :: '-' :: '-' :: ((' ' :: 'P' :: 'A' :: 'G' :: 'E' :: ' ' ::
        (natDigits i ++ endTokTail)) ++ after) from rfl]
    exact endTok_drop_not_pre _ hm0 hm3 _
  · intro _
    push_neg at hm3
    have hnl : ∀ c ∈ endTokOf (natDigits i), c ≠ '\n' :=
      endTok_no_nl (natDigits_all_digit i)
    have hlen_take : ((endTokOf (natDigits i)).take m).length = m := by
      rw [List.length_take]
      omega
    by_cases hk : m ≤ k₂
    · have h1 : (endTokOf (natDigits i)).take m <:+ midSection p ++ dashes k₂ :=
        suffix_short_of_append hsuf
          (by rw [hlen_take]; simp [List.length_append, dashes]; omega)
    -- inside the final dashes: but the token's fourth character is a space
      have h2 : (endTokOf (natDigits i)).take m <:+ dashes k₂ :=
        suffix_short_of_append h1 (by rw [hlen_take]; simp [dashes]; omega)
      have hspm := space_mem_endTok_take (natDigits i) (by omega : 4 ≤ m)
      exact absurd (List.eq_of_mem_replicate (h2.subset hspm)) (by decide)
    · obtain ⟨mi, hmi⟩ := midSection_snoc p
      have hre : dashes k₁ ++ (midSection p ++ dashes k₂) =
          (dashes k₁ ++ mi) ++ '\n' :: dashes k₂ := by
        rw [hmi]
        simp
      rw [hre] at hsuf
      have hnlm : '\n' ∈ (endTokOf (natDigits i)).take m :=
        suffix_mem_of_long hsuf (by rw [hlen_take]; simp [dashes]; omega)
      exact absurd rfl (hnl _ (List.mem_of_mem_take hnlm))

theorem dashes_split_right {n : Nat} (h : 3 ≤ n) :
    dashes n = dashes (n - 3) ++ ('-' :: '-' :: '-' :: []) := by
  rw [show ('-' :: '-' :: '-' :: [] : List Char) = List.replicate 3 '-' from rfl,
    dashes, dashes, ← List.replicate_add]
  congr 1
  omega

theorem dashes_split_left {n : Nat} (h : 3 ≤ n) :
    dashes n = ('-' :: '-' :: '-' :: []) ++ dashes (n - 3) := by
  rw [show ('-' :: '-' :: '-' :: [] : List Char) = List.replicate 3 '-' from rfl,
    dashes, dashes, ← List.replicate_add]
  congr 1
  omega

theorem startLit_alg (i : Nat) :
    startLit i =
      ('-' :: '-' :: '-' :: []) ++ (markerText i startWord ++ ('-' :: '-' :: '-' :: [])) := by
  rw [startLit, markerText]
  rw [show pageTok = ('-' :: '-' :: '-' :: []) ++ (" PAGE ").data from rfl]
  rw [show startTok = (' ' :: []) ++ (startWord ++ ((' ' :: []) ++ ('-' :: '-' :: '-' :: [])))
    from rfl]
  simp [List.append_assoc]

theorem endTok_alg (i : Nat) :
    endTokOf (natDigits i) =
      ('-' :: '-' :: '-' :: []) ++ (markerText i endWord ++ ('-' :: '-' :: '-' :: [])) := by
  rw [endTokOf, markerText]
  rw [show pageTok = ('-' :: '-' :: '-' :: []) ++ (" PAGE ").data from rfl]
  rw [show endTokTail = (' ' :: []) ++ (endWord ++ ((' ' :: []) ++ ('-' :: '-' :: '-' :: [])))
    from rfl]
  simp [List.append_assoc]

/-- The START marker line splits around the matched `--- PAGE i START ---`. -/
theorem createPageMarker_start_decomp (i : Nat) (h : (natDigits i).length ≤ 41) :
    createPageMarker i startWord =
      dashes (startPad i - 3) ++ (startLit i ++ dashes (startTrail i)) := by
  obtain ⟨⟨h2, h3, h4⟩, _⟩ := marker_arith h
  simp only [createPageMarker]
  rw [if_pos h2]
  rw [show (markerLength - (markerText i startWord).length) / 2 = startPad i from rfl]
  rw [show markerLength - (markerText i startWord).length - startPad i = startTrail i + 3
    from by simp only [startTrail, startPad]; omega]
  rw [dashes_split_right h3,
    show dashes (startTrail i + 3) = ('-' :: '-' :: '-' :: []) ++ dashes (startTrail i)
      from by rw [dashes_split_left (by omega), Nat.add_sub_cancel]]
  rw [startLit_alg]
  simp [List.append_assoc]

/-- The END marker line splits around the matched `--- PAGE i END ---`. -/
theorem createPageMarker_end_decomp (i : Nat) (h : (natDigits i).length ≤ 41) :
    createPageMarker i endWord =
      dashes (endLead i) ++ (endTokOf (natDigits i) ++ dashes (endTrail i)) := by
  obtain ⟨_, h2, h3, h4⟩ := marker_arith h
  simp only [createPageMarker]
  rw [if_pos h2]
  rw [show (markerLength - (markerText i endWord).length) / 2 = endPad i from rfl]
  rw [show markerLength - (markerText i endWord).length - endPad i = endTrail i + 3
    from by simp only [endTrail]; omega]
  rw [show dashes (endPad i) = dashes (endLead i) ++ ('-' :: '-' :: '-' :: [])
      from by rw [dashes_split_right h3, show endPad i - 3 = endLead i from rfl],
    show dashes (endTrail i + 3) = ('-' :: '-' :: '-' :: []) ++ dashes (endTrail i)
      from by rw [dashes_split_left (by omega), Nat.add_sub_cancel]]
  rw [endTok_alg]
  simp [List.append_assoc]

theorem collapseGo_nl_lt {j : Nat} (hj : j < 3) (x : List Char) :
    collapseGo j ('\n' :: x) = '\n' :: collapseGo (j + 1) x := by
  rw [collapseGo, if_pos rfl, if_pos hj]

theorem collapseGo_nl_ge {j : Nat} (hj : ¬ j < 3) (x : List Char) :
    collapseGo j ('\n' :: x) = collapseGo (j + 1) x := by
  rw [collapseGo, if_pos rfl, if_neg hj]

theorem markerText_no_nl (i : Nat) {ty : List Char} (hty : ¬ '\n' ∈ ty) :
    ¬ '\n' ∈ markerText i ty := by
  intro hc
  rw [markerText] at hc
  simp only [List.mem_append] at hc
  rcases hc with ((((h | h) | h) | h) | h)
  · exact absurd h (by decide)
  · exact absurd (natDigits_all_digit i '\n' h) (by decide)
  · exact absurd h (by decide)
  · exact hty h
  · exact absurd h (by decide)

theorem createPageMarker_no_nl (i : Nat) {ty : List Char} (hty : ¬ '\n' ∈ ty) :
    ¬ '\n' ∈ createPageMarker i ty := by
  intro hc
  simp only [createPageMarker] at hc
  split_ifs at hc
  · simp only [List.mem_append] at hc
    rcases hc with (h | h) | h
    · exact absurd (List.eq_of_mem_replicate h) (by decide)
    · exact markerText_no_nl i hty h
    · exact absurd (List.eq_of_mem_replicate h) (by decide)
  · exact markerText_no_nl i hty hc

theorem marker_cons (i : Nat) (ty : List Char)
    (h2 : (markerText i ty).length + 2 ≤ markerLength) :
    ∃ t, createPageMarker i ty = '-' :: t := by
  simp only [createPageMarker]
  rw [if_pos h2]
  rw [show (markerLength - (markerText i ty).length) / 2 =
    ((markerLength - (markerText i ty).length) / 2 - 1) + 1 from by
      have hml : markerLength = 60 := rfl
      rw [hml] at h2 ⊢
      omega]
  rw [dashes, List.replicate_succ]
  exact ⟨_, rfl⟩

theorem getLast_append_dashes {x : List Char} (hx : x.getLast? = some '-') (k : Nat) :
    (x ++ dashes k).getLast? = some '-' := by
  cases k with
  | zero => simpa [dashes] using hx
  | succ n =>
    rw [List.getLast?_append_of_ne_nil _ (by simp [dashes] : dashes (n + 1) ≠ [])]
    rw [dashes, List.replicate_succ', List.getLast?_concat]

theorem startLit_getLast (i : Nat) : (startLit i).getLast? = some '-' := by
  rw [startLit, List.getLast?_append_of_ne_nil _ (by decide : startTok ≠ [])]
  decide

theorem endTok_getLast (i : Nat) : (endTokOf (natDigits i)).getLast? = some '-' := by
  rw [endTokOf, List.getLast?_append_of_ne_nil _ (by decide : endTokTail ≠ [])]
  decide

theorem SM_getLast (i : Nat) (h : (natDigits i).length ≤ 41) :
    (createPageMarker i startWord).getLast? = some '-' := by
  rw [createPageMarker_start_decomp i h, ← List.append_assoc]
  exact getLast_append_dashes (by
    rw [List.getLast?_append_of_ne_nil _ (by rw [startLit_alg]; simp : startLit i ≠ [])]
    exact startLit_getLast i) _

theorem EM_getLast (i : Nat) (h : (natDigits i).length ≤ 41) :
    (createPageMarker i endWord).getLast? = some '-' := by
  rw [createPageMarker_end_decomp i h, ← List.append_assoc]
  exact getLast_append_dashes (by
    rw [List.getLast?_append_of_ne_nil _ (endTok_ne_nil (natDigits i))]
    exact endTok_getLast i) _

theorem collapse_clean_append {y : List Char} (hy : ¬ (fourNL <:+: y))
    (hlast : y = [] ∨ ∃ d, y.getLast? = some d ∧ d ≠ '\n') (Z : List Char) :
    collapseGo 0 (y ++ Z) = y ++ collapseGo 0 Z := by
  rcases hlast with rfl | ⟨d, hd, hdn⟩
  · simp
  · rw [collapseGo_append y hd hdn 0 Z, collapseGo_eq_self y 0 (by simpa using hy)]

/-- Collapsing one raw page block: the four (or kept three) newlines
around the stripped page text become `midSection`, and the markers pass
through unchanged. -/
theorem collapse_block (i : Nat) (p : List Char) (T Tc : List Char) (k : Nat)
    (hd : (natDigits i).length ≤ 41)
    (h4p : ¬ (fourNL <:+: p))
    (hT : collapseGo 0 T = Tc) :
    collapseGo k (createPageMarker i startWord ++ nlnl ++ pyStrip p ++ nlnl ++
        createPageMarker i endWord ++ T) =
      createPageMarker i startWord ++ midSection p ++
        createPageMarker i endWord ++ Tc := by
  obtain ⟨⟨hs2, _, _⟩, he2, _, _⟩ := marker_arith hd
  obtain ⟨SMt, hSM⟩ := marker_cons i startWord hs2
  obtain ⟨EMt, hEM⟩ := marker_cons i endWord he2
  have hSMnl : ¬ '\n' ∈ createPageMarker i startWord :=
    createPageMarker_no_nl i (by decide)
  have hEMnl : ¬ '\n' ∈ createPageMarker i endWord :=
    createPageMarker_no_nl i (by decide)
  have hcollEMT : ∀ j, collapseGo j (createPageMarker i endWord ++ T) =
      createPageMarker i endWord ++ Tc := by
    intro j
    rw [collapseGo_append _ (EM_getLast i hd) (by decide) j T, hT]
    congr 1
    rw [hEM, collapseGo_cons_nonNL (by decide)]
    rw [collapseGo_eq_self EMt 0 (fun hf => hEMnl (by
      rw [hEM]
      exact List.mem_cons_of_mem _
        (by simpa using hf.subset (show '\n' ∈ fourNL by decide))))]
  rw [show createPageMarker i startWord ++ nlnl ++ pyStrip p ++ nlnl ++
        createPageMarker i endWord ++ T =
      createPageMarker i startWord ++ ((nlnl ++ pyStrip p ++ nlnl) ++
        (createPageMarker i endWord ++ T)) by simp [List.append_assoc]]
  rw [collapseGo_append _ (SM_getLast i hd) (by decide) k _]
  have hcollSM : collapseGo k (createPageMarker i startWord) =
      createPageMarker i startWord := by
    rw [hSM, collapseGo_cons_nonNL (by decide)]
    rw [collapseGo_eq_self SMt 0 (fun hf => hSMnl (by
      rw [hSM]
      exact List.mem_cons_of_mem _
        (by simpa using hf.subset (show '\n' ∈ fourNL by decide))))]
  rw [hcollSM]
  cases hsp : pyStrip p with
  | nil =>
    rw [show (nlnl ++ ([] : List Char) ++ nlnl) ++ (createPageMarker i endWord ++ T) =
      '\n' :: '\n' :: '\n' :: '\n' :: (createPageMarker i endWord ++ T) from rfl]
    rw [collapseGo_nl_lt (by omega), collapseGo_nl_lt (by omega),
      collapseGo_nl_lt (by omega), collapseGo_nl_ge (by omega), hcollEMT 4]
    rw [midSection, if_pos hsp]
    simp [List.append_assoc]
  | cons c y =>
    have hc : pyIsSpace c = false := pyStrip_head_not_space hsp
    have hcnl : c ≠ '\n' := fun h => by rw [h] at hc; exact absurd hc (by decide)
    have hyinfix : y <:+: p := ((List.suffix_cons c y).isInfix.trans
      (hsp ▸ pyStrip_isInfix p))
    have h4y : ¬ (fourNL <:+: y) := fun h => h4p (h.trans hyinfix)
    have hylast : y = [] ∨ ∃ d, y.getLast? = some d ∧ d ≠ '\n' := by
      cases y with
      | nil => exact Or.inl rfl
      | cons d y' =>
        refine Or.inr ?_
        cases hgl : (d :: y').getLast? with
        | none => simp at hgl
        | some dl =>
          refine ⟨dl, rfl, fun hdl => ?_⟩
          have hgl2 : (pyStrip p).getLast? = some dl := by
            rw [hsp, List.getLast?_cons_cons, hgl]
          have := pyStrip_getLast_not_space hgl2
          rw [hdl] at this
          exact absurd this (by decide)
    rw [show (nlnl ++ (c :: y) ++ nlnl) ++ (createPageMarker i endWord ++ T) =
      '\n' :: '\n' :: (c :: (y ++ ('\n' :: '\n' :: (createPageMarker i endWord ++ T))))
      from by simp [nlnl]]
    rw [collapseGo_nl_lt (by omega), collapseGo_nl_lt (by omega),
      collapseGo_cons_nonNL hcnl]
    rw [collapse_clean_append h4y hylast]
    rw [collapseGo_nl_lt (by omega), collapseGo_nl_lt (by omega), hcollEMT 2]
    rw [midSection, if_neg (by simp [hsp])]
    rw [hsp]
    simp [nlnl, List.append_assoc]

theorem joinNL_cons₂ (a b : List Char) (r : List (List Char)) :
    joinNL (a :: b :: r) = a ++ '\n' :: joinNL (b :: r) := rfl

theorem bodyJ_cons (i : Nat) (p : List Char) (rest : List (List Char)) :
    bodyJ i (p :: rest) =
      createPageMarker i startWord ++ nlnl ++ pyStrip p ++ nlnl ++
        createPageMarker i endWord ++
        (match rest with
         | [] => '\n' :: []
         | _ :: _ => nlnl ++ bodyJ (i + 1) rest) := rfl

theorem bodyC_cons (i : Nat) (p : List Char) (rest : List (List Char)) :
    bodyC i (p :: rest) =
      createPageMarker i startWord ++ midSection p ++
        createPageMarker i endWord ++
        (match rest with
         | [] => '\n' :: []
         | _ :: _ => nlnl ++ bodyC (i + 1) rest) := rfl

theorem bodyF_cons (i : Nat) (p : List Char) (rest : List (List Char)) :
    bodyF i (p :: rest) =
      createPageMarker i startWord ++ midSection p ++
        createPageMarker i endWord ++
        (match rest with
         | [] => []
         | _ :: _ => nlnl ++ bodyF (i + 1) rest) := rfl

/-- The page parts joined by newlines equal the raw block list. -/
theorem joinNL_pageParts :
    ∀ (ps : List (List Char)) (i : Nat), ps ≠ [] →
      joinNL (pageParts i ps) = bodyJ i ps := by
  intro ps
  induction ps with
  | nil => intro i h; exact absurd rfl h
  | cons p rest ih =>
    intro i _
    cases rest with
    | nil => simp [pageParts, bodyJ, joinNL, nlnl]
    | cons q rest' =>
      obtain ⟨y, ys, hy⟩ : ∃ y ys, pageParts (i + 1) (q :: rest') = y :: ys :=
        ⟨_, _, rfl⟩
      show joinNL (createPageMarker i startWord :: [] :: pyStrip p :: [] ::
        createPageMarker i endWord :: [] :: pageParts (i + 1) (q :: rest')) = _
      rw [hy, joinNL_cons₂, joinNL_cons₂, joinNL_cons₂, joinNL_cons₂, joinNL_cons₂,
        joinNL_cons₂, ← hy, ih (i + 1) (by simp)]
      rw [bodyJ_cons i p (q :: rest')]
      simp [nlnl]

set_option maxHeartbeats 2000000 in
/-- Collapsing the raw blocks yields the collapsed blocks, from any
newline-run state (each block starts with a dash). -/
theorem collapse_bodyJ :
    ∀ (ps : List (List Char)) (i : Nat), i + ps.length ≤ 10 ^ 40 →
      (∀ p ∈ ps, ¬ (fourNL <:+: p)) →
      ∀ k, collapseGo k (bodyJ i ps) = bodyC i ps := by
  intro ps
  induction ps with
  | nil => intro i _ _ k; rfl
  | cons p rest ih =>
    intro i hb h4 k
    have hd : (natDigits i).length ≤ 41 := by
      refine natDigits_length_le 41 (by norm_num) i ?_
      have h1 : i < 10 ^ 40 := by
        simp only [List.length_cons] at hb
        omega
      have h2 : (10 : Nat) ^ 40 < 10 ^ 41 := by norm_num
      omega
    rw [bodyJ_cons, bodyC_cons]
    cases rest with
    | nil =>
      exact collapse_block i p ('\n' :: []) ('\n' :: []) k hd (h4 p (by simp)) rfl
    | cons q rest' =>
      refine collapse_block i p (nlnl ++ bodyJ (i + 1) (q :: rest'))
        (nlnl ++ bodyC (i + 1) (q :: rest')) k hd (h4 p (by simp)) ?_
      show collapseGo 0 ('\n' :: '\n' :: bodyJ (i + 1) (q :: rest')) = _
      rw [collapseGo_nl_lt (by omega), collapseGo_nl_lt (by omega)]
      rw [ih (i + 1) (by simp only [List.length_cons] at hb ⊢; omega)
        (fun x hx => h4 x (by simp [hx])) 2]
      rw [show (nlnl ++ bodyC (i + 1) (q :: rest') : List Char) =
        '\n' :: '\n' :: bodyC (i + 1) (q :: rest') from rfl]

/-- Dropping the final newline: the collapsed body is the final body plus
one trailing newline. -/
theorem bodyC_eq_bodyF :
    ∀ (ps : List (List Char)) (i : Nat), ps ≠ [] →
      bodyC i ps = bodyF i ps ++ ('\n' :: []) := by
  intro ps
  induction ps with
  | nil => intro i h; exact absurd rfl h
  | cons p rest ih =>
    intro i _
    rw [bodyC_cons, bodyF_cons]
    cases rest with
    | nil => simp
    | cons q rest' =>
      rw [ih (i + 1) (by simp)]
      simp [nlnl, List.append_assoc]

theorem createPageMarker_ne_nil (i : Nat) (ty : List Char) :
    createPageMarker i ty ≠ [] := by
  intro h
  simp only [createPageMarker] at h
  have hmt : markerText i ty ≠ [] := by
    intro hmt
    have h6 := congrArg List.length hmt
    rw [markerText_length] at h6
    simp only [List.length_nil] at h6
    omega
  split_ifs at h
  · rcases List.append_eq_nil.mp h with ⟨h1, -⟩
    rcases List.append_eq_nil.mp h1 with ⟨-, h2⟩
    exact hmt h2
  · exact hmt h

theorem bodyF_ne_nil (i : Nat) (p : List Char) (rest : List (List Char)) :
    bodyF i (p :: rest) ≠ [] := by
  rw [bodyF_cons]
  intro h
  rcases List.append_eq_nil.mp h with ⟨h1, -⟩
  rcases List.append_eq_nil.mp h1 with ⟨h2, -⟩
  rcases List.append_eq_nil.mp h2 with ⟨h3, -⟩
  exact createPageMarker_ne_nil i startWord h3

theorem digits_le_41 {i : Nat} (h : i < 10 ^ 40) : (natDigits i).length ≤ 41 := by
  refine natDigits_length_le 41 (by norm_num) i ?_
  have h2 : (10 : Nat) ^ 40 < 10 ^ 41 := by norm_num
  omega

theorem bodyF_getLast :
    ∀ (ps : List (List Char)) (i : Nat), ps ≠ [] → i + ps.length ≤ 10 ^ 40 →
      (bodyF i ps).getLast? = some '-' := by
  intro ps
  induction ps with
  | nil => intro i h _; exact absurd rfl h
  | cons p rest ih =>
    intro i _ hb
    have hd : (natDigits i).length ≤ 41 :=
      digits_le_41 (by simp only [List.length_cons] at hb; omega)
    rw [bodyF_cons]
    cases rest with
    | nil =>
      rw [show (match ([] : List (List Char)) with
        | [] => ([] : List Char)
        | _ :: _ => nlnl ++ bodyF (i + 1) []) = [] from rfl]
      rw [List.append_nil]
      rw [List.getLast?_append_of_ne_nil _ (createPageMarker_ne_nil i endWord)]
      exact EM_getLast i hd
    | cons q rest' =>
      rw [show (match q :: rest' with
        | [] => ([] : List Char)
        | _ :: _ => nlnl ++ bodyF (i + 1) (q :: rest')) =
        nlnl ++ bodyF (i + 1) (q :: rest') from rfl]
      rw [List.getLast?_append_of_ne_nil _
        (by simp [nlnl] : nlnl ++ bodyF (i + 1) (q :: rest') ≠ [])]
      rw [List.getLast?_append_of_ne_nil _ (bodyF_ne_nil (i + 1) q rest')]
      exact ih (i + 1) (by simp) (by simp only [List.length_cons] at hb ⊢; omega)

theorem collapseGo_snoc {c : Char} (hc : c ≠ '\n') :
    ∀ (x : List Char) (k : Nat), ∃ y, collapseGo k (x ++ (c :: [])) = y ++ (c :: []) := by
  intro x
  induction x with
  | nil =>
    intro k
    refine ⟨[], ?_⟩
    rw [List.nil_append, collapseGo_cons_nonNL hc]
    rfl
  | cons a x' ih =>
    intro k
    rw [List.cons_append]
    by_cases ha : a = '\n'
    · subst ha
      by_cases hk : k < 3
      · obtain ⟨y, hy⟩ := ih (k + 1)
        exact ⟨'\n' :: y, by rw [collapseGo_nl_lt hk, hy]; rfl⟩
      · obtain ⟨y, hy⟩ := ih (k + 1)
        exact ⟨y, by rw [collapseGo_nl_ge hk, hy]⟩
    · obtain ⟨y, hy⟩ := ih 0
      exact ⟨a :: y, by rw [collapseGo_cons_nonNL ha, hy]; rfl⟩

theorem createHeader_getLast (f : List Char) :
    (createHeader f).getLast? = some ']' := by
  rw [createHeader,
    List.getLast?_append_of_ne_nil _ (by decide : (']' :: []) ≠ ([] : List Char))]
  rfl

theorem CH_cons (f : List Char) :
    ∃ t, collapseGo 0 (createHeader f) = '[' :: t := by
  rw [show createHeader f = '[' :: (("DOCUMENT FILENAME: ").data ++ f ++ (']' :: []))
    from rfl]
  rw [collapseGo_cons_nonNL (by decide)]
  exact ⟨_, rfl⟩

/-- The fully formatted document with at least one page: the collapsed
header, a blank line, and the page blocks. -/
theorem formatDocument_decomp (ps : List (List Char)) (f : List Char) (hps : ps ≠ [])
    (hb : 1 + ps.length ≤ 10 ^ 40)
    (h4 : ∀ p ∈ ps, ¬ (fourNL <:+: p)) :
    formatDocument ps f =
      collapseGo 0 (createHeader f) ++ nlnl ++ bodyF 1 ps := by
  have hFne : bodyF 1 ps ≠ [] := by
    cases ps with
    | nil => exact absurd rfl hps
    | cons p r => exact bodyF_ne_nil 1 p r
  rw [formatDocument, collapseNewlines]
  obtain ⟨y, ys, hy⟩ : ∃ y ys, pageParts 1 ps = y :: ys := by
    cases ps with
    | nil => exact absurd rfl hps
    | cons p r => exact ⟨_, _, rfl⟩
  rw [joinNL_cons₂, hy, joinNL_cons₂, ← hy, joinNL_pageParts ps 1 hps]
  show pyStrip (collapseGo 0 (createHeader f ++ (nlnl ++ bodyJ 1 ps))) = _
  rw [collapseGo_append _ (createHeader_getLast f) (by decide) 0 _]
  rw [show collapseGo 0 (nlnl ++ bodyJ 1 ps) = '\n' :: '\n' :: collapseGo 2 (bodyJ 1 ps)
    from by
      rw [show nlnl ++ bodyJ 1 ps = '\n' :: '\n' :: bodyJ 1 ps from rfl,
        collapseGo_nl_lt (by omega), collapseGo_nl_lt (by omega)]]
  rw [collapse_bodyJ ps 1 hb h4 2]
  rw [bodyC_eq_bodyF ps 1 hps]
  obtain ⟨t, hCH⟩ := CH_cons f
  have hlast : (collapseGo 0 (createHeader f) ++
      ('\n' :: '\n' :: bodyF 1 ps)).getLast? = some '-' := by
    rw [List.getLast?_append_of_ne_nil _ (by simp : ('\n' :: '\n' :: bodyF 1 ps) ≠ [])]
    rw [show ('\n' :: '\n' :: bodyF 1 ps : List Char) =
      ('\n' :: '\n' :: []) ++ bodyF 1 ps from rfl]
    rw [List.getLast?_append_of_ne_nil _ hFne]
    exact bodyF_getLast ps 1 hps hb
  rw [show collapseGo 0 (createHeader f) ++ '\n' :: '\n' :: (bodyF 1 ps ++ ('\n' :: [])) =
      (collapseGo 0 (createHeader f) ++ ('\n' :: '\n' :: bodyF 1 ps)) ++ ('\n' :: [])
    from by simp]
  rw [hCH] at hlast ⊢
  rw [show ('[' :: t) ++ ('\n' :: '\n' :: bodyF 1 ps) =
    '[' :: (t ++ ('\n' :: '\n' :: bodyF 1 ps)) from rfl] at hlast ⊢
  rw [pyStrip_of_clean (by decide) hlast (by decide)]
  rw [show '[' :: (t ++ ('\n' :: '\n' :: bodyF 1 ps)) =
    ('[' :: t) ++ ('\n' :: '\n' :: bodyF 1 ps) from rfl, ← hCH]
  simp [nlnl, List.append_assoc]

/-- One scanner step across a canonically shaped block. -/
theorem splitScanGo_match (i : Nat) (content after : List Char) (fuel : Nat)
    (hocc : ¬ (endTokOf (natDigits i) <:+: content))
    (hstr : ∀ m, 0 < m → m < (endTokOf (natDigits i)).length →
      (endTokOf (natDigits i)).take m <:+ content →
      ¬ ((endTokOf (natDigits i)).drop m <+: endTokOf (natDigits i) ++ after)) :
    splitScanGo (fuel + 1) (startLit i ++ (content ++ (endTokOf (natDigits i) ++ after))) =
      pyStrip content :: splitScanGo fuel after := by
  rw [splitScanGo_succ]
  simp only [tryPageMatch_canonical i content after hocc hstr]

theorem no_pageTok_dashes (k : Nat) : ¬ (pageTok <:+: dashes k) :=
  fun h => absurd (infix_replicate_eq h ' ' (by decide)) (by decide)

theorem no_pageTok_nil : ¬ (pageTok <:+: ([] : List Char)) := by
  intro h
  have h2 := h.length_le
  rw [pageTok_eq] at h2
  simp at h2

theorem pageTok_drop_nil {m : Nat} (hm : m < 9) : ¬ (pageTok.drop m <+: []) := by
  intro hp
  have h0 := congrArg List.length (List.prefix_nil.mp hp)
  rw [List.length_drop] at h0
  have h9 : pageTok.length = 9 := rfl
  rw [h9] at h0
  simp only [List.length_nil] at h0
  omega

/-- The master scan: leading junk free of page tokens, then the page
blocks; the scanner returns exactly the recovered pages. -/
theorem splitScan_bodyF :
    ∀ (ps : List (List Char)) (i : Nat) (junk : List Char) (fuel : Nat),
      (junk ++ bodyF i ps).length < fuel →
      ¬ (pageTok <:+: junk) →
      i + ps.length ≤ 10 ^ 40 →
      (∀ p ∈ ps, ¬ (pagePre <:+: p)) →
      splitScanGo fuel (junk ++ bodyF i ps) = recoveredPages i ps := by
  intro ps
  induction ps with
  | nil =>
    intro i junk fuel hfuel hocc _ _
    rw [show bodyF i [] = [] from rfl] at hfuel ⊢
    rw [splitScanGo_skip junk [] fuel
      (by simp only [List.append_nil, List.length_append] at hfuel ⊢; omega) hocc
      (fun m hm0 hm9 hp => pageTok_drop_nil hm9 hp)]
    rw [splitScanGo_nil]
    rfl
  | cons p rest ih =>
    intro i junk fuel hfuel hocc hb hpre
    have hi40 : i < 10 ^ 40 := by simp only [List.length_cons] at hb; omega
    have hd : (natDigits i).length ≤ 41 := digits_le_41 hi40
    obtain ⟨⟨hs2, hs3, hs4⟩, he2, he3, he4⟩ := marker_arith hd
    have hSLlen : (startLit i).length = 19 + (natDigits i).length := by
      have h1 : pageTok.length = 9 := rfl
      have h2 : startTok.length = 10 := rfl
      rw [startLit]
      simp only [List.length_append, h1, h2]
      omega
    have hETlen := endTok_length (natDigits i)
    rw [bodyF_cons] at hfuel ⊢
    generalize hT : (match rest with
      | [] => ([] : List Char)
      | _ :: _ => nlnl ++ bodyF (i + 1) rest) = TALL at hfuel ⊢
    have hSMlen : (createPageMarker i startWord).length =
        (startPad i - 3) + ((19 + (natDigits i).length) + startTrail i) := by
      rw [createPageMarker_start_decomp i hd]
      simp only [List.length_append, dashes, List.length_replicate, hSLlen]
    have hEMlen : (createPageMarker i endWord).length =
        endLead i + ((17 + (natDigits i).length) + endTrail i) := by
      rw [createPageMarker_end_decomp i hd]
      simp only [List.length_append, dashes, List.length_replicate, hETlen]
    simp only [List.length_append] at hfuel
    rw [createPageMarker_start_decomp i hd, createPageMarker_end_decomp i hd]
    rw [show junk ++ ((dashes (startPad i - 3) ++ (startLit i ++ dashes (startTrail i))) ++
          midSection p ++
          (dashes (endLead i) ++ (endTokOf (natDigits i) ++ dashes (endTrail i))) ++ TALL) =
        (junk ++ dashes (startPad i - 3)) ++
          (startLit i ++ ((dashes (startTrail i) ++ (midSection p ++ dashes (endLead i))) ++
            (endTokOf (natDigits i) ++ (dashes (endTrail i) ++ TALL))))
      from by simp [List.append_assoc]]
    rw [splitScanGo_skip (junk ++ dashes (startPad i - 3))
      (startLit i ++ ((dashes (startTrail i) ++ (midSection p ++ dashes (endLead i))) ++
        (endTokOf (natDigits i) ++ (dashes (endTrail i) ++ TALL)))) fuel
      (by simp only [List.length_append, dashes, List.length_replicate]; omega)
      (no_pageTok_append_dashes hocc _)
      (fun m hm0 hm9 hp => pageTok_drop_not_pre hm0 hm9 _ hp)]
    obtain ⟨f2, hf2⟩ : ∃ f2,
        fuel - (junk ++ dashes (startPad i - 3)).length = f2 + 1 := by
      refine ⟨fuel - (junk ++ dashes (startPad i - 3)).length - 1, ?_⟩
      simp only [List.length_append, dashes, List.length_replicate]
      omega
    have hf2' : f2 = fuel - junk.length - (startPad i - 3) - 1 := by
      simp only [List.length_append, dashes, List.length_replicate] at hf2
      omega
    rw [hf2]
    rw [splitScanGo_match i _ _ f2
      (no_endTok_in_content i (hpre p (by simp)) (startTrail i) (endLead i))
      (endTok_hstr i p (startTrail i) (endLead i) _)]
    rw [show recoveredPages i (p :: rest) =
      recoveredPage i p :: recoveredPages (i + 1) rest from rfl]
    refine congrArg₂ List.cons ?_ ?_
    · rw [recoveredPage, List.append_assoc]
    · cases rest with
      | nil =>
        have hT0 : TALL = [] := by rw [← hT]
        rw [hT0]
        rw [splitScanGo_skip (dashes (endTrail i)) [] f2
          (by simp only [List.length_append, dashes, List.length_replicate]; omega)
          (no_pageTok_dashes _)
          (fun m hm0 hm9 hp => pageTok_drop_nil hm9 hp)]
        rw [splitScanGo_nil]
        rfl
      | cons q rest' =>
        have hT1 : TALL = nlnl ++ bodyF (i + 1) (q :: rest') := by rw [← hT]
        rw [hT1]
        rw [show dashes (endTrail i) ++ (nlnl ++ bodyF (i + 1) (q :: rest')) =
          (dashes (endTrail i) ++ nlnl) ++ bodyF (i + 1) (q :: rest')
          from by simp [List.append_assoc]]
        have hTlen : TALL.length = 2 + (bodyF (i + 1) (q :: rest')).length := by
          rw [hT1]
          simp [nlnl]
          omega
        refine ih (i + 1) (dashes (endTrail i) ++ nlnl) f2 ?_ ?_ ?_ ?_
        · simp only [List.length_append, dashes, List.length_replicate, nlnl,
            List.length_cons, List.length_nil]
          omega
        · exact no_pageTok_append_nlnl (no_pageTok_dashes _)
        · simp only [List.length_cons] at hb ⊢
          omega
        · exact fun x hx => hpre x (List.mem_cons_of_mem _ hx)

theorem no_pageTok_CH {f : List Char} (hf : ¬ (pagePre <:+: f)) :
    ¬ (pageTok <:+: collapseGo 0 (createHeader f)) :=
  fun h => no_pageTok_header hf
    (collapse_pull_isInfix pageTok (by decide) (by decide) _ 0 h)

set_option maxRecDepth 100000 in
/-- C3 (counterexample): the round trip does not return the stripped
pages themselves — `split_by_pages` captures the residual marker dashes
around each page. -/
theorem splitByPages_roundtrip_counterexample :
    splitByPages (formatDocument (("a").data :: []) (("doc.pdf").data)) ≠
      (("a").data :: []).map pyStrip := by
  with_unfolding_all decide

/-- C3 (amended): for pages free of four-newline runs and of the
substring `--- PAGE`, a filename free of `--- PAGE`, and fewer than
`10 ^ 40` pages, `split_by_pages` on the formatted document returns, for
each page in order, the stripped page text wrapped in the residual
padding dashes of its two marker lines (and stripped again) — the
`recoveredPages` of the original list. -/
theorem splitByPages_formatDocument (pages : List (List Char)) (filename : List Char)
    (H1 : ∀ p ∈ pages, ¬ (fourNL <:+: p))
    (H2 : ∀ p ∈ pages, ¬ (pagePre <:+: p))
    (H3 : ¬ (pagePre <:+: filename))
    (H4 : pages.length < 10 ^ 40) :
    splitByPages (formatDocument pages filename) = recoveredPages 1 pages := by
  cases pages with
  | nil =>
    rw [formatDocument, collapseNewlines]
    rw [show pageParts 1 [] = [] from rfl]
    rw [joinNL_cons₂]
    rw [show joinNL (([] : List Char) :: []) = [] from rfl]
    rw [collapseGo_append _ (createHeader_getLast filename) (by decide) 0 _]
    rw [show collapseGo 0 ('\n' :: ([] : List Char)) = '\n' :: ([] : List Char) from rfl]
    have hSocc : ¬ (pageTok <:+:
        pyStrip (collapseGo 0 (createHeader filename) ++ ('\n' :: []))) := by
      intro h
      have h2 := h.trans (pyStrip_isInfix _)
      rcases infix_append_cases h2 with h3 | h3 | ⟨t₁, t₂, ht, hne1, hne2, hsuf, hpre⟩
      · exact no_pageTok_CH H3 h3
      · have h4 := h3.length_le
        rw [pageTok_eq] at h4
        simp at h4
      · have hn : '\n' ∈ t₂ := head_mem_prefix hpre hne2
        have hmem : '\n' ∈ pageTok := by
          rw [← ht]
          exact List.mem_append_right t₁ hn
        exact absurd hmem (by decide)
    rw [splitByPages]
    have hskip := splitScanGo_skip
      (pyStrip (collapseGo 0 (createHeader filename) ++ ('\n' :: []))) []
      ((pyStrip (collapseGo 0 (createHeader filename) ++ ('\n' :: []))).length + 1)
      (by omega) hSocc (fun m hm0 hm9 hp => pageTok_drop_nil hm9 hp)
    rw [List.append_nil] at hskip
    rw [hskip, splitScanGo_nil]
    rfl
  | cons p rest =>
    rw [formatDocument_decomp (p :: rest) filename (by simp)
      (by simp only [List.length_cons] at H4 ⊢; omega) H1]
    rw [splitByPages]
    refine splitScan_bodyF (p :: rest) 1 _ _ ?_ ?_ ?_ H2
    · omega
    · exact no_pageTok_append_nlnl (no_pageTok_CH H3)
    · simp only [List.length_cons] at H4 ⊢
      omega

/-- C3 (witness): the amended round trip at a concrete one-page
document. -/
theorem splitByPages_formatDocument_witness :
    splitByPages (formatDocument (("hello").data :: []) (("doc.pdf").data)) =
      recoveredPages 1 (("hello").data :: []) :=
  splitByPages_formatDocument _ _ (by decide) (by decide) (by decide) (by norm_num)

end PDFX
